import Mathlib

/-! Store and index of an append-only record log.

A shallow embedding of `log/store.go` and `log/index.go`.

* Machine integers are natural numbers; every place where the Go code computes in
  `uint64`, `uint32` or `int64` carries the wrap-around explicitly.
* A byte is a natural number below 256; the encoders only ever produce such values.
* The memory-mapped region of the index is a length together with a byte at every
  address, so that regions of any capacity can be written down and evaluated.
* Slice expressions and `make` can fail at run time in Go; the embedding reports
  that as the distinguished result `Err.outOfRange`, which is not an error value the
  Go function returns but the run-time panic.
-/

namespace Log

/-! ## Results -/

/-- Error results. `EOF` is `io.EOF`; `shortWrite` is `io.ErrShortWrite`; `noSpace` is
the failure the operating system reports for a write the device cannot take;
`negativeOffset` is the failure of a positional read or a truncate at a negative
`int64`; `mapFailed` is the failure of mapping a region of length zero;
`outOfRange` stands for the Go run-time panic on a slice expression or `make` whose
bounds are out of range. -/
inductive Err where
  | EOF
  | shortWrite
  | noSpace
  | negativeOffset
  | mapFailed
  | outOfRange
  deriving DecidableEq, Repr

/-- Result of a call: a value, or an error. -/
inductive Res (α : Type) where
  | ok (a : α)
  | error (e : Err)
  deriving DecidableEq, Repr

/-! ## Machine integers -/

/-- Conversion to `uint64`: wrap-around at `2^64`. -/
def toUint64 (n : Nat) : Nat := n % 2 ^ 64

/-- Conversion `uint32(x)` of a signed 64-bit value: the low 32 bits. -/
def int64ToUint32 (x : Int) : Nat := (x % 2 ^ 32).toNat

/-- Conversion `int64(x)` of a `uint64` value: values from `2^63` on become negative. -/
def toInt64 (n : Nat) : Int :=
  if n % 2 ^ 64 < 2 ^ 63 then ((n % 2 ^ 64 : Nat) : Int) else ((n % 2 ^ 64 : Nat) : Int) - 2 ^ 64

/-! ## `encoding/binary`, big endian (`enc`) -/

/-- Big-endian `enc.PutUint32`: the four bytes `byte(v >> 24)`, `byte(v >> 16)`,
`byte(v >> 8)`, `byte(v)`. -/
def PutUint32 (v : Nat) : List Nat :=
  [v / 2 ^ 24 % 256, v / 2 ^ 16 % 256, v / 2 ^ 8 % 256, v % 256]

/-- Big-endian `enc.PutUint64`: the eight bytes `byte(v >> 56)` down to `byte(v)`. -/
def PutUint64 (v : Nat) : List Nat :=
  [v / 2 ^ 56 % 256, v / 2 ^ 48 % 256, v / 2 ^ 40 % 256, v / 2 ^ 32 % 256,
   v / 2 ^ 24 % 256, v / 2 ^ 16 % 256, v / 2 ^ 8 % 256, v % 256]

/-- Big-endian `enc.Uint32` of the first four bytes of `b`:
`b[3] | b[2]<<8 | b[1]<<16 | b[0]<<24` (on bytes the bit ranges are disjoint, so the
bitwise or is the sum). -/
def Uint32 (b : List Nat) : Nat :=
  b.getD 3 0 + b.getD 2 0 * 2 ^ 8 + b.getD 1 0 * 2 ^ 16 + b.getD 0 0 * 2 ^ 24

/-- Big-endian `enc.Uint64` of the first eight bytes of `b`. -/
def Uint64 (b : List Nat) : Nat :=
  b.getD 7 0 + b.getD 6 0 * 2 ^ 8 + b.getD 5 0 * 2 ^ 16 + b.getD 4 0 * 2 ^ 24 +
  b.getD 3 0 * 2 ^ 32 + b.getD 2 0 * 2 ^ 40 + b.getD 1 0 * 2 ^ 48 + b.getD 0 0 * 2 ^ 56

/-! ## Index (`log/index.go`) -/

/-- Width of the record-number field of an index entry (`offWidth`). -/
def offWidth : Nat := 4

/-- Width of the position field of an index entry (`posWidth`). -/
def posWidth : Nat := 8

/-- Width of an index entry (`entWidth = offWidth + posWidth`). -/
def entWidth : Nat := offWidth + posWidth

/-- The mapped region `gommap.MMap`, a `[]byte` whose length and capacity are the
length of the mapping: `len` bytes, the byte at address `a < len` being `byte a`. -/
structure MMap where
  len : Nat
  byte : Nat → Nat

/-- The slice expression `m[lo:hi]` read as a list of bytes; `none` when Go panics
(`lo > hi` or `hi > len(m)`). -/
def MMap.slice (m : MMap) (lo hi : Nat) : Option (List Nat) :=
  if lo ≤ hi ∧ hi ≤ m.len then
    some ((List.range (hi - lo)).map (fun k => m.byte (lo + k)))
  else none

/-- Storing the bytes `bs` through the slice `m[lo:hi]`, as `enc.PutUint32` and
`enc.PutUint64` do; `none` when the slice expression panics or the slice is shorter
than `bs`. -/
def MMap.put (m : MMap) (lo hi : Nat) (bs : List Nat) : Option MMap :=
  if lo ≤ hi ∧ hi ≤ m.len ∧ bs.length ≤ hi - lo then
    some { len := m.len
           byte := fun a => if lo ≤ a ∧ a < lo + bs.length then bs.getD (a - lo) 0 else m.byte a }
  else none

/-- The index: the mapped region and `size`, the number of bytes of the region in use.
The backing file is, while the index is open, the mapped region itself
(`MAP_SHARED`); it is a list of bytes before `newIndex` and after `Close`. -/
structure index where
  mmap : MMap
  size : Nat

/-- The function `newIndex` over a backing file holding the bytes `file`, with
`c.Segment.MaxIndexBytes = maxIndexBytes` (a `uint64`; the type `Config` is declared
outside the two source files). `size` is the length of the file; the file is then
truncated or zero-extended to `int64(maxIndexBytes)` bytes, which fails when that
value is negative, and mapped whole, which fails for length zero. -/
def newIndex (file : List Nat) (maxIndexBytes : Nat) : Res index :=
  if toInt64 maxIndexBytes < 0 then Res.error Err.negativeOffset
  else if toUint64 maxIndexBytes = 0 then Res.error Err.mapFailed
  else Res.ok
    { mmap := { len := toUint64 maxIndexBytes
                byte := fun a => if a < toUint64 maxIndexBytes then file.getD a 0 else 0 }
      size := toUint64 file.length }

/-- The method `index.Read`. -/
def index.Read (i : index) (in_ : Int) : Res (Nat × Nat) :=
  if i.size = 0 then Res.error Err.EOF
  else
    let out : Nat :=
      if in_ = -1 then toUint64 (i.size / entWidth + 2 ^ 64 - 1) % 2 ^ 32
      else int64ToUint32 in_
    let pos : Nat := toUint64 (out * entWidth)
    if i.size < toUint64 (pos + entWidth) then Res.error Err.EOF
    else
      match i.mmap.slice pos (toUint64 (pos + offWidth)),
            i.mmap.slice (toUint64 (pos + offWidth)) (toUint64 (pos + entWidth)) with
      | some a, some b => Res.ok (Uint32 a, Uint64 b)
      | _, _ => Res.error Err.outOfRange

/-- The method `index.Write`: the result and the index afterwards. -/
def index.Write (i : index) (off pos : Nat) : Res Unit × index :=
  if i.mmap.len < toUint64 (i.size + entWidth) then (Res.error Err.EOF, i)
  else
    match i.mmap.put i.size (toUint64 (i.size + offWidth)) (PutUint32 off) with
    | none => (Res.error Err.outOfRange, i)
    | some m1 =>
      match m1.put (toUint64 (i.size + offWidth)) (toUint64 (i.size + entWidth)) (PutUint64 pos) with
      | none => (Res.error Err.outOfRange, { mmap := m1, size := i.size })
      | some m2 => (Res.ok (), { mmap := m2, size := toUint64 (i.size + entWidth) })

/-- The method `index.Close`: the bytes of the backing file afterwards. The mapped
region is synchronised to the file, and the file is truncated (or zero-extended) to
`int64(size)` bytes, which fails when that value is negative. -/
def index.Close (i : index) : Res (List Nat) :=
  if toInt64 i.size < 0 then Res.error Err.negativeOffset
  else Res.ok ((List.range i.size).map (fun a => if a < i.mmap.len then i.mmap.byte a else 0))

/-- A run of `index.Write` calls in order, stopping at the first one that does not
succeed. -/
def index.WriteAll (i : index) : List (Nat × Nat) → Res Unit × index
  | [] => (Res.ok (), i)
  | e :: es =>
    match i.Write e.1 e.2 with
    | (Res.ok _, i1) => i1.WriteAll es
    | (Res.error err, i1) => (Res.error err, i1)

/-- The pair stored in entry `k` of a mapped region: the record number in bytes
`[12k, 12k+4)` and the position in bytes `[12k+4, 12k+12)`, big endian. -/
def MMap.entry (m : MMap) (k : Nat) : Nat × Nat :=
  (Uint32 ((List.range 4).map (fun j => m.byte (12 * k + j))),
   Uint64 ((List.range 8).map (fun j => m.byte (12 * k + 4 + j))))

/-- The test scenario of `TestIndex`: capacity 1024, entries `(0, 2)` and `(1, 10)`
written to an index over an empty file. -/
def testIndex : index :=
  match newIndex [] 1024 with
  | Res.ok i => (i.WriteAll [(0, 2), (1, 10)]).2
  | Res.error _ => { mmap := { len := 0, byte := fun _ => 0 }, size := 0 }

/-! ## Store (`log/store.go`) -/

/-- Width of the length field in front of every record (`lenWidth`). -/
def lenWidth : Nat := 8

/-- An open `os.File` as the store uses it: the bytes of the file, the offset at
which the handle writes next, and `limit`, the number of bytes the device holds for
this file (a write that would pass it is cut short and fails). No file is longer
than `2^63 - 1` bytes, the largest `int64` offset. -/
structure File where
  data : List Nat
  off : Nat
  limit : Nat

/-- Number of bytes a write through the handle can still take. -/
def File.room (f : File) : Nat := min f.limit (2 ^ 63 - 1) - f.off

/-- The method `(*os.File).Write`: the number of bytes written, the error, and the
file afterwards. The bytes go to the handle's offset, over what is there. -/
def File.Write (f : File) (p : List Nat) : Nat × Option Err × File :=
  let k := min p.length f.room
  let f1 : File :=
    if k = 0 then f
    else
      { data := f.data.take f.off ++ List.replicate (f.off - f.data.length) 0 ++ p.take k ++
                f.data.drop (f.off + k)
        off := f.off + k
        limit := f.limit }
  (k, if k < p.length then some Err.noSpace else none, f1)

/-- The method `(*os.File).ReadAt` for a buffer of `n` bytes: the bytes read (their
number is the count returned) and the error: a negative offset fails, and fewer than
`n` bytes come with `io.EOF`. -/
def File.ReadAt (f : File) (n : Nat) (off : Int) : List Nat × Option Err :=
  if off < 0 then ([], some Err.negativeOffset)
  else
    let b := (f.data.drop off.toNat).take n
    (b, if b.length < n then some Err.EOF else none)

/-- Size of the buffer of `bufio.NewWriter` (`defaultBufSize`). -/
def defaultBufSize : Nat := 4096

/-- A `bufio.Writer`: the buffered bytes `b.buf[0:b.n]` and the sticky error `b.err`.
The underlying writer is the store's file, passed to every operation. -/
structure Writer where
  buf : List Nat
  err : Option Err

/-- The method `(*bufio.Writer).Available`. -/
def Writer.Available (b : Writer) : Nat := defaultBufSize - b.buf.length

/-- The method `(*bufio.Writer).Buffered`. -/
def Writer.Buffered (b : Writer) : Nat := b.buf.length

/-- The method `(*bufio.Writer).Flush`. -/
def Writer.Flush (b : Writer) (f : File) : Option Err × Writer × File :=
  match b.err with
  | some e => (some e, b, f)
  | none =>
    if b.buf.length = 0 then (none, b, f)
    else
      let r := f.Write b.buf
      let err := if r.1 < b.buf.length ∧ r.2.1 = none then some Err.shortWrite else r.2.1
      match err with
      | some e => (some e, { buf := b.buf.drop r.1, err := some e }, r.2.2)
      | none => (none, { buf := [], err := none }, r.2.2)

/-- The loop of `(*bufio.Writer).Write`, `for len(p) > b.Available() && b.err == nil`:
the count so far, the rest of `p`, the writer and the file when the loop is left. The
first argument bounds the number of iterations. -/
def Writer.writeLoop : Nat → Writer → File → List Nat → Nat → Nat × List Nat × Writer × File
  | 0, b, f, p, nn => (nn, p, b, f)
  | fuel + 1, b, f, p, nn =>
    if b.Available < p.length ∧ b.err = none then
      if b.Buffered = 0 then
        let r := f.Write p
        Writer.writeLoop fuel { buf := b.buf, err := r.2.1 } r.2.2 (p.drop r.1) (nn + r.1)
      else
        let n := min b.Available p.length
        let r := Writer.Flush { buf := b.buf ++ p.take n, err := b.err } f
        Writer.writeLoop fuel r.2.1 r.2.2 (p.drop n) (nn + n)
    else (nn, p, b, f)

/-- The method `(*bufio.Writer).Write`: the count, the error, the writer and the file
afterwards. -/
def Writer.Write (b : Writer) (f : File) (p : List Nat) : Nat × Option Err × Writer × File :=
  let r := Writer.writeLoop (p.length + 2) b f p 0
  match r.2.2.1.err with
  | some e => (r.1, some e, r.2.2.1, r.2.2.2)
  | none =>
    let n := min r.2.2.1.Available r.2.1.length
    (r.1 + n, none, { buf := r.2.2.1.buf ++ r.2.1.take n, err := none }, r.2.2.2)

/-- The store: the file, the buffered writer over it, and `size`. -/
structure store where
  File : File
  buf : Writer
  size : Nat

/-- The function `newStore` over an open file. -/
def newStore (f : File) : store :=
  { File := f, size := toUint64 f.data.length, buf := { buf := [], err := none } }

/-- The method `store.Append`: the result `(n, pos)` or the error, and the store
afterwards. `binary.Write` of a `uint64` is one `Write` of its eight bytes. -/
def store.Append (s : store) (p : List Nat) : Res (Nat × Nat) × store :=
  let pos := s.size
  let r1 := s.buf.Write s.File (PutUint64 (toUint64 p.length))
  match r1.2.1 with
  | some e => (Res.error e, { File := r1.2.2.2, buf := r1.2.2.1, size := s.size })
  | none =>
    let r2 := r1.2.2.1.Write r1.2.2.2 p
    match r2.2.1 with
    | some e => (Res.error e, { File := r2.2.2.2, buf := r2.2.2.1, size := s.size })
    | none =>
      let w := r2.1 + lenWidth
      (Res.ok (toUint64 w, pos),
       { File := r2.2.2.2, buf := r2.2.2.1, size := toUint64 (s.size + toUint64 w) })

/-- The method `store.Read`: the record or the error, and the store afterwards.
`make([]byte, n)` panics here when `n` does not fit an `int`, on every platform. The
Go run time panics already for `n` above its allocation limit (`2^48` bytes on
linux/amd64) and ends the process when memory runs out below it; these depend on
the platform and are left out, so that the embedding panics no more often than
the code. -/
def store.Read (s : store) (pos : Nat) : Res (List Nat) × store :=
  let r := s.buf.Flush s.File
  let s1 : store := { File := r.2.2, buf := r.2.1, size := s.size }
  match r.1 with
  | some e => (Res.error e, s1)
  | none =>
    let size := s1.File.ReadAt lenWidth (toInt64 pos)
    match size.2 with
    | some e => (Res.error e, s1)
    | none =>
      if 2 ^ 63 ≤ Uint64 size.1 then (Res.error Err.outOfRange, s1)
      else
        let b := s1.File.ReadAt (Uint64 size.1) (toInt64 (toUint64 (pos + lenWidth)))
        match b.2 with
        | some e => (Res.error e, s1)
        | none => (Res.ok b.1, s1)

/-- The method `store.ReadAt` for a buffer of `n` bytes: the bytes read and the error,
and the store afterwards. -/
def store.ReadAt (s : store) (n : Nat) (off : Int) : (List Nat × Option Err) × store :=
  let r := s.buf.Flush s.File
  let s1 : store := { File := r.2.2, buf := r.2.1, size := s.size }
  match r.1 with
  | some e => (([], some e), s1)
  | none => (s1.File.ReadAt n off, s1)

/-- The method `store.Close`: the error of the flush, if any, and the store
afterwards. -/
def store.Close (s : store) : Option Err × store :=
  let r := s.buf.Flush s.File
  (r.1, { File := r.2.2, buf := r.2.1, size := s.size })

/-- A call on a store. -/
inductive Op where
  | Append (p : List Nat)
  | Read (pos : Nat)
  | ReadAt (n : Nat) (off : Int)

/-- A sequence of calls on a store: the start position and payload of every `Append`
that succeeded, in order, and the store afterwards. A `Read` that panics ends the
run. -/
def store.run (s : store) : List Op → List (Nat × List Nat) × store
  | [] => ([], s)
  | Op.Append p :: ops =>
    match s.Append p with
    | (Res.ok r, s1) => let t := s1.run ops; ((r.2, p) :: t.1, t.2)
    | (Res.error _, s1) => s1.run ops
  | Op.Read pos :: ops =>
    match s.Read pos with
    | (Res.error Err.outOfRange, s1) => ([], s1)
    | (_, s1) => s1.run ops
  | Op.ReadAt n off :: ops => (s.ReadAt n off).2.run ops

/-- Number of bytes the `Append` calls of a sequence add: eight and the payload for
each. -/
def Op.need : List Op → Nat
  | [] => 0
  | Op.Append p :: ops => lenWidth + p.length + Op.need ops
  | _ :: ops => Op.need ops

/-- An empty file on a device that takes `limit` bytes. -/
def File.empty (limit : Nat) : File := { data := [], off := 0, limit := limit }

/-- The payload of the store tests, `write = []byte("this is a record")`. -/
def write : List Nat := [116, 104, 105, 115, 32, 105, 115, 32, 97, 32, 114, 101, 99, 111, 114, 100]

/-- The entry index `index.Read` works with: the last entry for `-1`, the low 32 bits of
the argument otherwise (the value of `out` before the bounds check). -/
def index.effective (i : index) (in_ : Int) : Nat :=
  if in_ = -1 then toUint64 (i.size / entWidth + 2 ^ 64 - 1) % 2 ^ 32 else int64ToUint32 in_

/-- The index holds exactly the entries `es`, in order: `size` counts them and entry
`k` of the mapped region is the `k`-th pair, each field at its width. -/
def index.Stores (i : index) (es : List (Nat × Nat)) : Prop :=
  i.size = 12 * es.length ∧
  ∀ k e, es[k]? = some e → i.mmap.entry k = (e.1 % 2 ^ 32, e.2 % 2 ^ 64)

/-- The value of a result, if it is one. -/
def Res.toOption {α : Type} : Res α → Option α
  | Res.ok a => some a
  | Res.error _ => none

/-- A call on an index. -/
inductive IndexOp where
  | Write (off pos : Nat)
  | Read (in_ : Int)

/-- A sequence of `Write` and `Read` calls on an index: the index afterwards. A call
that panics ends the run. -/
def index.run (i : index) : List IndexOp → index
  | [] => i
  | IndexOp.Write off pos :: ops =>
    match i.Write off pos with
    | (Res.error Err.outOfRange, i1) => i1
    | (_, i1) => i1.run ops
  | IndexOp.Read in_ :: ops =>
    match i.Read in_ with
    | Res.error Err.outOfRange => i
    | _ => i.run ops

/-- The index `newIndex` gives over an empty file with capacity 1024. -/
def emptyIndex : index :=
  { mmap := { len := 1024, byte := fun a => if a < 1024 then ([] : List Nat).getD a 0 else 0 }
    size := 0 }

/-- An index of `2^32` entries, all bytes zero, in a region with room for one more. -/
def fullIndex : index :=
  { mmap := { len := 12 * (2 ^ 32 + 1), byte := fun _ => 0 }, size := 12 * 2 ^ 32 }

/-- The two entries of the test written to an index over an empty file with capacity
24, which they fill. -/
def filledIndex : index :=
  match newIndex [] 24 with
  | Res.ok i => (i.WriteAll [(0, 2), (1, 10)]).2
  | Res.error _ => { mmap := { len := 0, byte := fun _ => 0 }, size := 0 }

/-- The bytes written to a store so far, in order: those in the file followed by
those still in the buffer. -/
def store.content (s : store) : List Nat := s.File.data ++ s.buf.buf

/-- A store in working order: the writer carries no error, its buffer is within its
size, the handle stands at the end of the file, and `size` counts the bytes written,
in the file or still buffered. -/
def store.Good (s : store) : Prop :=
  s.buf.err = none ∧ s.buf.buf.length ≤ defaultBufSize ∧ s.File.off = s.File.data.length ∧
  s.size = s.content.length

/-- The bytes `c` hold the frame of payload `p` at position `pos`: the eight bytes of
the big-endian length of `p`, then `p`. -/
def Framed (c : List Nat) (pos : Nat) (p : List Nat) : Prop :=
  ∃ a b, c = a ++ (PutUint64 p.length ++ p) ++ b ∧ a.length = pos

/-- The payloads of the `Append` calls of a sequence, in order. -/
def Op.payloads : List Op → List (List Nat)
  | [] => []
  | Op.Append p :: ops => p :: Op.payloads ops
  | _ :: ops => Op.payloads ops

/-- Whether a call is a `Read`. -/
def Op.isRead : Op → Bool
  | Op.Read _ => true
  | _ => false

/-- The concatenation of the frames of a list of payloads: for each, the eight bytes
of its big-endian length, then the payload. -/
def frames : List (List Nat) → List Nat
  | [] => []
  | p :: ps => PutUint64 p.length ++ p ++ frames ps

/-- What holds of a store whatever has failed: the handle stands at the end of the
file, the buffer is within its size, the file is no longer than the largest offset,
`size` is at most the number of bytes in the file and in the buffer, and equals it
as long as the writer carries no error. -/
def store.Counted (s : store) : Prop :=
  s.File.off = s.File.data.length ∧ s.buf.buf.length ≤ defaultBufSize ∧
  s.File.data.length ≤ 2 ^ 63 - 1 ∧
  s.size ≤ s.File.data.length + s.buf.buf.length ∧
  (s.buf.err = none → s.size = s.File.data.length + s.buf.buf.length)

/-! ## Basic facts -/

theorem Uint32_PutUint32 (v : Nat) : Uint32 (PutUint32 v) = v % 2 ^ 32 := by
  simp only [Uint32, PutUint32, List.getD_cons_zero, List.getD_cons_succ]
  omega

theorem Uint64_PutUint64 (v : Nat) : Uint64 (PutUint64 v) = v % 2 ^ 64 := by
  simp only [Uint64, PutUint64, List.getD_cons_zero, List.getD_cons_succ]
  omega

theorem int64ToUint32_lt (x : Int) : int64ToUint32 x < 2 ^ 32 := by
  unfold int64ToUint32
  have h1 : 0 ≤ x % 2 ^ 32 := Int.emod_nonneg _ (by norm_num)
  have h2 : x % 2 ^ 32 < 2 ^ 32 := Int.emod_lt_of_pos _ (by norm_num)
  omega

theorem index.effective_lt (i : index) (in_ : Int) : i.effective in_ < 2 ^ 32 := by
  unfold index.effective
  split
  · exact Nat.mod_lt _ (by norm_num)
  · exact int64ToUint32_lt _

/-- What `index.Read` computes, with the wrap-arounds resolved: the checks on `size`,
then the entry at the effective index, or the panic when that entry lies outside the
mapped region. -/
theorem index.Read_eq (i : index) (in_ : Int) :
    i.Read in_ =
      if i.size = 0 then Res.error Err.EOF
      else if i.size < 12 * i.effective in_ + 12 then Res.error Err.EOF
      else if 12 * i.effective in_ + 12 ≤ i.mmap.len then Res.ok (i.mmap.entry (i.effective in_))
      else Res.error Err.outOfRange := by
  have hk := i.effective_lt in_
  have e1 : toUint64 (i.effective in_ * entWidth) = 12 * i.effective in_ := by
    simp only [toUint64, entWidth, offWidth, posWidth]; omega
  have e2 : toUint64 (12 * i.effective in_ + entWidth) = 12 * i.effective in_ + 12 := by
    simp only [toUint64, entWidth, offWidth, posWidth]; omega
  have e3 : toUint64 (12 * i.effective in_ + offWidth) = 12 * i.effective in_ + 4 := by
    simp only [toUint64, offWidth]; omega
  have hR : i.Read in_ =
      if i.size = 0 then Res.error Err.EOF
      else if i.size < toUint64 (toUint64 (i.effective in_ * entWidth) + entWidth) then
        Res.error Err.EOF
      else
        match i.mmap.slice (toUint64 (i.effective in_ * entWidth))
                (toUint64 (toUint64 (i.effective in_ * entWidth) + offWidth)),
              i.mmap.slice (toUint64 (toUint64 (i.effective in_ * entWidth) + offWidth))
                (toUint64 (toUint64 (i.effective in_ * entWidth) + entWidth)) with
        | some a, some b => Res.ok (Uint32 a, Uint64 b)
        | _, _ => Res.error Err.outOfRange := rfl
  rw [hR, e1, e2, e3]
  by_cases h0 : i.size = 0
  · simp [h0]
  · simp only [h0, if_false]
    by_cases h1 : i.size < 12 * i.effective in_ + 12
    · simp [h1]
    · simp only [h1, if_false]
      by_cases h2 : 12 * i.effective in_ + 12 ≤ i.mmap.len
      · have a1 : 12 * i.effective in_ + 4 ≤ i.mmap.len := by omega
        simp [MMap.slice, MMap.entry, h2, a1, List.range_succ]
      · simp [MMap.slice, h2]

/-- A `Write` with room: the result, the bytes of the region and `size` afterwards. -/
theorem index.Write_room (i : index) (off pos : Nat)
    (h : i.size + 12 ≤ i.mmap.len) (hno : i.size + 12 < 2 ^ 64) :
    i.Write off pos =
      (Res.ok (),
       { mmap :=
           { len := i.mmap.len
             byte := fun a =>
               if i.size + 4 ≤ a ∧ a < i.size + 4 + 8 then (PutUint64 pos).getD (a - (i.size + 4)) 0
               else if i.size ≤ a ∧ a < i.size + 4 then (PutUint32 off).getD (a - i.size) 0
               else i.mmap.byte a }
         size := i.size + 12 }) := by
  have e1 : toUint64 (i.size + entWidth) = i.size + 12 := by
    simp only [toUint64, entWidth, offWidth, posWidth]; omega
  have e2 : toUint64 (i.size + offWidth) = i.size + 4 := by
    simp only [toUint64, offWidth]; omega
  have a1 : ¬ i.mmap.len < i.size + 12 := by omega
  have a2 : i.size + 4 ≤ i.mmap.len := by omega
  unfold index.Write
  simp [e1, e2, a1, a2, h, MMap.put, PutUint32, PutUint64]

theorem MMap.put_len {m m1 : MMap} {lo hi : Nat} {bs : List Nat}
    (h : m.put lo hi bs = some m1) : m1.len = m.len := by
  unfold MMap.put at h
  split at h
  · cases h; rfl
  · cases h

theorem index.Write_len (i : index) (off pos : Nat) :
    (i.Write off pos).2.mmap.len = i.mmap.len := by
  unfold index.Write
  split
  · rfl
  · split
    · rfl
    · rename_i m1 h1
      split
      · exact MMap.put_len h1
      · rename_i m2 h2
        exact (MMap.put_len h2).trans (MMap.put_len h1)

theorem index.Write_byte_below (i : index) (off pos a : Nat)
    (h : i.size + 12 ≤ i.mmap.len) (hno : i.size + 12 < 2 ^ 64) (ha : a < i.size) :
    (i.Write off pos).2.mmap.byte a = i.mmap.byte a := by
  rw [index.Write_room i off pos h hno]
  show (if _ then _ else if _ then _ else _) = _
  rw [if_neg (by omega), if_neg (by omega)]

theorem index.Write_byte_off (i : index) (off pos j : Nat)
    (h : i.size + 12 ≤ i.mmap.len) (hno : i.size + 12 < 2 ^ 64) (hj : j < 4) :
    (i.Write off pos).2.mmap.byte (i.size + j) = (PutUint32 off).getD j 0 := by
  rw [index.Write_room i off pos h hno]
  show (if _ then _ else if _ then _ else _) = _
  rw [if_neg (by omega), if_pos (by omega)]
  congr 1
  omega

theorem index.Write_byte_pos (i : index) (off pos j : Nat)
    (h : i.size + 12 ≤ i.mmap.len) (hno : i.size + 12 < 2 ^ 64) (hj : j < 8) :
    (i.Write off pos).2.mmap.byte (i.size + 4 + j) = (PutUint64 pos).getD j 0 := by
  rw [index.Write_room i off pos h hno]
  show (if _ then _ else if _ then _ else _) = _
  rw [if_pos (by omega)]
  congr 1
  omega

theorem MMap.entry_congr (m1 m2 : MMap) (k : Nat)
    (h : ∀ a, 12 * k ≤ a → a < 12 * k + 12 → m1.byte a = m2.byte a) :
    m1.entry k = m2.entry k := by
  unfold MMap.entry
  have h4 : (List.range 4).map (fun j => m1.byte (12 * k + j)) =
      (List.range 4).map (fun j => m2.byte (12 * k + j)) := by
    apply List.map_congr_left
    intro j hj
    rw [List.mem_range] at hj
    exact h _ (by omega) (by omega)
  have h8 : (List.range 8).map (fun j => m1.byte (12 * k + 4 + j)) =
      (List.range 8).map (fun j => m2.byte (12 * k + 4 + j)) := by
    apply List.map_congr_left
    intro j hj
    rw [List.mem_range] at hj
    exact h _ (by omega) (by omega)
  rw [h4, h8]

theorem index.Write_entry_below (i : index) (off pos k : Nat)
    (h : i.size + 12 ≤ i.mmap.len) (hno : i.size + 12 < 2 ^ 64) (hk : 12 * k + 12 ≤ i.size) :
    (i.Write off pos).2.mmap.entry k = i.mmap.entry k := by
  apply MMap.entry_congr
  intro a _ ha
  exact index.Write_byte_below i off pos a h hno (by omega)

theorem index.Write_entry_new (i : index) (off pos n : Nat)
    (h : i.size + 12 ≤ i.mmap.len) (hno : i.size + 12 < 2 ^ 64) (hn : i.size = 12 * n) :
    (i.Write off pos).2.mmap.entry n = (off % 2 ^ 32, pos % 2 ^ 64) := by
  unfold MMap.entry
  have h4 : (List.range 4).map (fun j => (i.Write off pos).2.mmap.byte (12 * n + j)) =
      PutUint32 off := by
    have e : PutUint32 off = (List.range 4).map (fun j => (PutUint32 off).getD j 0) := by
      simp [PutUint32, List.range_succ]
    rw [e]
    apply List.map_congr_left
    intro j hj
    rw [List.mem_range] at hj
    rw [← hn]
    exact index.Write_byte_off i off pos j h hno hj
  have h8 : (List.range 8).map (fun j => (i.Write off pos).2.mmap.byte (12 * n + 4 + j)) =
      PutUint64 pos := by
    have e : PutUint64 pos = (List.range 8).map (fun j => (PutUint64 pos).getD j 0) := by
      simp [PutUint64, List.range_succ]
    rw [e]
    apply List.map_congr_left
    intro j hj
    rw [List.mem_range] at hj
    rw [← hn]
    exact index.Write_byte_pos i off pos j h hno hj
  rw [h4, h8, Uint32_PutUint32, Uint64_PutUint64]

theorem index.WriteAll_Stores (es1 : List (Nat × Nat)) :
    ∀ (i : index) (es : List (Nat × Nat)), i.Stores es →
      12 * (es.length + es1.length) ≤ i.mmap.len → i.mmap.len < 2 ^ 63 →
      (i.WriteAll es1).1 = Res.ok () ∧ (i.WriteAll es1).2.Stores (es ++ es1) ∧
      (i.WriteAll es1).2.mmap.len = i.mmap.len := by
  induction es1 with
  | nil =>
    intro i es hs _ _
    simpa [index.WriteAll] using hs
  | cons e es1 ih =>
    intro i es hs hroom hl
    have hsz := hs.1
    have hlen : (e :: es1).length = es1.length + 1 := rfl
    have h : i.size + 12 ≤ i.mmap.len := by omega
    have hno : i.size + 12 < 2 ^ 64 := by omega
    have hw := index.Write_room i e.1 e.2 h hno
    have hst : (i.Write e.1 e.2).2.Stores (es ++ [e]) := by
      refine ⟨?_, ?_⟩
      · rw [hw]; simp [hsz]; omega
      · intro k x hk
        by_cases hlt : k < es.length
        · rw [List.getElem?_append_left hlt] at hk
          rw [index.Write_entry_below i e.1 e.2 k h hno (by omega)]
          exact hs.2 k x hk
        · have hk2 : k = es.length := by
            have := (List.getElem?_eq_some_iff.1 hk).1
            simp at this
            omega
          subst hk2
          simp at hk
          subst hk
          exact index.Write_entry_new i e.1 e.2 es.length h hno hsz
    have hl2 : (i.Write e.1 e.2).2.mmap.len = i.mmap.len := index.Write_len i e.1 e.2
    have := ih (i.Write e.1 e.2).2 (es ++ [e]) hst (by simp; omega) (by omega)
    have hstep : i.WriteAll (e :: es1) = (i.Write e.1 e.2).2.WriteAll es1 := by
      show (match i.Write e.1 e.2 with
        | (Res.ok _, i1) => i1.WriteAll es1
        | (Res.error err, i1) => (Res.error err, i1)) = _
      rw [hw]
    rw [hstep]
    refine ⟨this.1, ?_, by rw [this.2.2, hl2]⟩
    simpa using this.2.1

theorem int64ToUint32_natCast (k : Nat) (hk : k < 2 ^ 32) : int64ToUint32 (k : Int) = k := by
  unfold int64ToUint32
  have : ((k : Int) % 2 ^ 32) = (k : Int) := Int.emod_eq_of_lt (by omega) (by omega)
  rw [this]
  simp

/-- C1. Index round trip by record number: when the pairs `(k, pos_k)`, `k = 0..n-1`,
are written in that order with `index.Write` to an index of size 0 whose mapped
region has room for all `n` entries, every `Write` succeeds and `index.Read(k)`
returns exactly `(k, pos_k)` for every `k < n`. -/
theorem index_round_trip (i : index) (ps : List Nat) (h0 : i.size = 0)
    (hroom : 12 * ps.length ≤ i.mmap.len) (hcap : i.mmap.len < 2 ^ 63)
    (hn : ps.length ≤ 2 ^ 32) (hp : ∀ p ∈ ps, p < 2 ^ 64) :
    (i.WriteAll ps.enum).1 = Res.ok () ∧
    ∀ k (hk : k < ps.length), (i.WriteAll ps.enum).2.Read (k : Int) = Res.ok (k, ps[k]) := by
  have hs0 : i.Stores [] := ⟨by simp [h0], by simp⟩
  have hW := index.WriteAll_Stores ps.enum i [] hs0 (by simpa using hroom) hcap
  refine ⟨hW.1, ?_⟩
  intro k hk
  have hst := hW.2.1
  simp only [List.nil_append] at hst
  have hsz : (i.WriteAll ps.enum).2.size = 12 * ps.length := by simpa using hst.1
  have hent := hst.2 k (k, ps[k]) (by simp [List.getElem?_enum, hk])
  have hne : ((k : Nat) : Int) ≠ -1 := by omega
  have heff : (i.WriteAll ps.enum).2.effective (k : Int) = k := by
    unfold index.effective
    rw [if_neg hne]
    exact int64ToUint32_natCast k (by omega)
  rw [index.Read_eq, heff, if_neg (by omega), if_neg (by omega), if_pos (by rw [hW.2.2]; omega), hent]
  have hpk : ps[k] < 2 ^ 64 := hp _ (List.getElem_mem hk)
  simp only [Nat.mod_eq_of_lt hpk]
  rw [Nat.mod_eq_of_lt (by omega)]

theorem index_round_trip_witness :
    (testIndex.Read 0 = Res.ok (0, 2) ∧ testIndex.Read 1 = Res.ok (1, 10)) := by
  have h := index_round_trip emptyIndex [2, 10] rfl (by decide) (by decide) (by decide) (by decide)
  exact ⟨h.2 0 (by decide), h.2 1 (by decide)⟩

theorem index.effective_last (i : index) (h1 : 1 ≤ i.size / 12) (h2 : i.size / 12 ≤ 2 ^ 32) :
    i.effective (-1) = i.size / 12 - 1 := by
  unfold index.effective
  simp only [if_true, toUint64, entWidth, offWidth, posWidth]
  omega

/-- C2, as the code has it. Read of the last entry: for every index whose `size` lies
within the mapped region and counts between 1 and `2^32` entries, `index.Read(-1)`
succeeds and returns the pair stored in entry `size / 12 - 1`; and after a `Write` of
`(off, pos)` to such an index, at a `size` that is a multiple of 12 and with room in
the region, `index.Read(-1)` returns `(off, pos)`. -/
theorem index_Read_last :
    (∀ i : index, 1 ≤ i.size / 12 → i.size / 12 ≤ 2 ^ 32 → i.size ≤ i.mmap.len →
      i.Read (-1) = Res.ok (i.mmap.entry (i.size / 12 - 1))) ∧
    (∀ (i : index) (off pos : Nat), i.size % 12 = 0 → i.size / 12 < 2 ^ 32 →
      i.size + 12 ≤ i.mmap.len → off < 2 ^ 32 → pos < 2 ^ 64 →
      (i.Write off pos).1 = Res.ok () ∧ (i.Write off pos).2.Read (-1) = Res.ok (off, pos)) := by
  have key : ∀ i : index, 1 ≤ i.size / 12 → i.size / 12 ≤ 2 ^ 32 → i.size ≤ i.mmap.len →
      i.Read (-1) = Res.ok (i.mmap.entry (i.size / 12 - 1)) := by
    intro i h1 h2 hs
    rw [index.Read_eq, index.effective_last i h1 h2, if_neg (by omega), if_neg (by omega),
      if_pos (by omega)]
  refine ⟨key, ?_⟩
  intro i off pos h12 hn hroom ho hp
  have hno : i.size + 12 < 2 ^ 64 := by omega
  have hw := index.Write_room i off pos hroom hno
  have hsz : (i.Write off pos).2.size = i.size + 12 := by rw [hw]
  have hlen : (i.Write off pos).2.mmap.len = i.mmap.len := index.Write_len i off pos
  refine ⟨by rw [hw], ?_⟩
  rw [key _ (by rw [hsz]; omega) (by rw [hsz]; omega) (by rw [hsz, hlen]; omega)]
  have hidx : (i.Write off pos).2.size / 12 - 1 = i.size / 12 := by rw [hsz]; omega
  rw [hidx, index.Write_entry_new i off pos (i.size / 12) hroom hno (by omega),
    Nat.mod_eq_of_lt ho, Nat.mod_eq_of_lt hp]

theorem index_Read_last_witness :
    testIndex.Read (-1) = Res.ok (testIndex.mmap.entry (testIndex.size / 12 - 1)) ∧
    ((testIndex.Write 2 33).1 = Res.ok () ∧ (testIndex.Write 2 33).2.Read (-1) = Res.ok (2, 33)) :=
  ⟨index_Read_last.1 testIndex (by decide) (by decide) (by decide),
   index_Read_last.2 testIndex 2 33 (by decide) (by decide) (by decide) (by decide) (by decide)⟩

/-- C2 as stated fails. With `2^32 + 1` entries, the last one `(5, 9)` just written by a
successful `Write`, `index.Read(-1)` returns entry 0, the pair `(0, 0)`: the entry
index `size / 12 - 1 = 2^32` is cut to 32 bits. And on an index opened over a file of
24 bytes with capacity 12, `size` counts two entries and `index.Read(-1)` slices past
the mapped region. -/
theorem index_Read_last_counterexample :
    ((fullIndex.Write 5 9).1 = Res.ok () ∧
      (fullIndex.Write 5 9).2.size / 12 - 1 = 2 ^ 32 ∧
      (fullIndex.Write 5 9).2.mmap.entry ((fullIndex.Write 5 9).2.size / 12 - 1) = (5, 9) ∧
      (fullIndex.Write 5 9).2.Read (-1) = Res.ok (0, 0)) ∧
    ((newIndex (List.replicate 24 0) 12).toOption.map index.size = some 24 ∧
      (newIndex (List.replicate 24 0) 12).toOption.map (fun i => i.Read (-1)) =
        some (Res.error Err.outOfRange)) := by
  decide

/-- Where `index.Read` does fail for an entry never written: whenever the low 32 bits of
the argument, other than `-1`, are no entry index below `size / 12`. -/
theorem index.Read_eof_of_low_bits (i : index) (in_ : Int) (hne : in_ ≠ -1)
    (h : i.size / 12 ≤ int64ToUint32 in_) : i.Read in_ = Res.error Err.EOF := by
  have he : i.effective in_ = int64ToUint32 in_ := by
    unfold index.effective
    rw [if_neg hne]
  rw [index.Read_eq, he]
  by_cases h0 : i.size = 0
  · rw [if_pos h0]
  · rw [if_neg h0, if_pos (by omega)]

/-- C3. Read of a never-written entry: on the index of the test (capacity 1024, the
two entries `(0, 2)` and `(1, 10)`), `index.Read(2)` is end-of-file, but
`index.Read(4294967296)` and `index.Read(-4294967296)` return entry 0 and
`index.Read(-4294967295)` returns entry 1, without error: the argument is cut to 32
bits before the bounds check. -/
theorem index_Read_out_of_range_returns_entry :
    testIndex.size / 12 = 2 ∧
    testIndex.Read 2 = Res.error Err.EOF ∧
    testIndex.Read 4294967296 = Res.ok (0, 2) ∧
    testIndex.Read (-4294967296) = Res.ok (0, 2) ∧
    testIndex.Read (-4294967295) = Res.ok (1, 10) := by
  decide

/-- C4. Capacity boundary: for every index state with `size` a multiple of 12 (and
`size + 12` within `uint64`, as it is in every state `newIndex` and `Write` produce,
see `newIndex_run_no_wrap`), `index.Write(off, pos)` returns the end-of-file error
exactly when the number of entries after the write would exceed `capacity / 12`,
that is exactly when `capacity < size + 12`; a rejected `Write` leaves the index,
`size` and every byte of the mapped region, as it was; and otherwise the `Write`
succeeds. -/
theorem index_Write_capacity (i : index) (off pos : Nat)
    (h12 : i.size % 12 = 0) (hno : i.size + 12 < 2 ^ 64) :
    ((i.Write off pos).1 = Res.error Err.EOF ↔ i.mmap.len / 12 < i.size / 12 + 1) ∧
    ((i.Write off pos).1 = Res.error Err.EOF ↔ i.mmap.len < i.size + 12) ∧
    ((i.Write off pos).1 = Res.error Err.EOF → (i.Write off pos).2 = i) ∧
    (¬ (i.Write off pos).1 = Res.error Err.EOF → (i.Write off pos).1 = Res.ok ()) := by
  have e1 : toUint64 (i.size + entWidth) = i.size + 12 := by
    simp only [toUint64, entWidth, offWidth, posWidth]; omega
  have hiff : (i.Write off pos).1 = Res.error Err.EOF ↔ i.mmap.len < i.size + 12 := by
    constructor
    · intro h
      by_contra hc
      rw [index.Write_room i off pos (by omega) hno] at h
      cases h
    · intro h
      unfold index.Write
      rw [e1, if_pos h]
  refine ⟨?_, hiff, ?_, ?_⟩
  · rw [hiff]; omega
  · intro h
    have hlt := hiff.1 h
    unfold index.Write
    rw [e1, if_pos hlt]
  · intro h
    have hge : i.size + 12 ≤ i.mmap.len := by
      by_contra hc
      exact h (hiff.2 (by omega))
    rw [index.Write_room i off pos hge hno]

theorem index_Write_capacity_witness :
    (filledIndex.size = 24 ∧ filledIndex.mmap.len = 24 ∧
      (filledIndex.Write 2 33).1 = Res.error Err.EOF ∧
      (filledIndex.Write 2 33).2 = filledIndex) ∧
    (testIndex.size = 24 ∧ testIndex.mmap.len = 1024 ∧
      (testIndex.Write 2 33).1 = Res.ok ()) :=
  have h := index_Write_capacity filledIndex 2 33 (by decide) (by decide)
  have g := index_Write_capacity testIndex 2 33 (by decide) (by decide)
  ⟨⟨by decide, by decide, h.2.1.2 (by decide), h.2.2.1 (h.2.1.2 (by decide))⟩,
   ⟨by decide, by decide, g.2.2.2 (fun hc => absurd (g.2.1.1 hc) (by decide))⟩⟩

/-- C9. Empty-index boundary: for every index with `size` 0 and every argument,
`-1` and `0` included, `index.Read` fails with the end-of-file error. -/
theorem index_Read_empty (i : index) (in_ : Int) (h : i.size = 0) :
    i.Read in_ = Res.error Err.EOF := by
  unfold index.Read
  rw [if_pos h]

theorem index_Read_empty_witness :
    (newIndex [] 1024).toOption.map (fun i => i.Read (-1)) = some (Res.error Err.EOF) ∧
    (newIndex [] 1024).toOption.map (fun i => i.Read 0) = some (Res.error Err.EOF) := by
  have h : newIndex [] 1024 = Res.ok emptyIndex := rfl
  rw [h]
  exact ⟨congrArg some (index_Read_empty _ (-1) rfl), congrArg some (index_Read_empty _ 0 rfl)⟩

theorem newIndex_ok (file : List Nat) (cap : Nat) (h0 : 0 < cap) (hcap : cap < 2 ^ 63) :
    newIndex file cap =
      Res.ok { mmap := { len := cap, byte := fun a => if a < cap then file.getD a 0 else 0 }
               size := toUint64 file.length } := by
  have e : toUint64 cap = cap := by simp only [toUint64]; omega
  have e2 : ¬ toInt64 cap < 0 := by
    unfold toInt64
    rw [if_pos (by omega)]
    omega
  unfold newIndex
  rw [if_neg e2, e, if_neg (by omega)]

theorem newIndex_inv (file : List Nat) (cap : Nat) (i : index) (h : newIndex file cap = Res.ok i) :
    i.mmap.len = toUint64 cap ∧ i.size = toUint64 file.length ∧ i.mmap.len < 2 ^ 63 := by
  unfold newIndex at h
  split at h
  · cases h
  · rename_i hneg
    split at h
    · cases h
    · cases h
      refine ⟨rfl, rfl, ?_⟩
      show toUint64 cap < 2 ^ 63
      unfold toInt64 at hneg
      unfold toUint64
      by_contra hc
      rw [if_neg hc] at hneg
      omega

theorem index.run_len (ops : List IndexOp) : ∀ i : index, (i.run ops).mmap.len = i.mmap.len := by
  induction ops with
  | nil => intro i; rfl
  | cons op ops ih =>
    intro i
    cases op with
    | Write off pos =>
      have hl := index.Write_len i off pos
      unfold index.run
      split
      · rename_i i1 heq
        rw [heq] at hl
        exact hl
      · rename_i r i1 _ heq
        rw [heq] at hl
        rw [ih i1]
        exact hl
    | Read in_ =>
      unfold index.run
      split
      · rfl
      · exact ih i

theorem index.run_inv (ops : List IndexOp) :
    ∀ i : index, i.size % 12 = 0 → i.size ≤ i.mmap.len → i.mmap.len < 2 ^ 63 →
      (i.run ops).size % 12 = 0 ∧ (i.run ops).size ≤ (i.run ops).mmap.len := by
  induction ops with
  | nil => intro i h1 h2 _; exact ⟨h1, h2⟩
  | cons op ops ih =>
    intro i h1 h2 h3
    cases op with
    | Write off pos =>
      have hl := index.Write_len i off pos
      by_cases hroom : i.size + 12 ≤ i.mmap.len
      · have hw := index.Write_room i off pos hroom (by omega)
        have hstep : i.run (IndexOp.Write off pos :: ops) = (i.Write off pos).2.run ops := by
          show (match i.Write off pos with
            | (Res.error Err.outOfRange, i1) => i1
            | (_, i1) => i1.run ops) = _
          rw [hw]
        rw [hstep]
        apply ih
        · rw [hw]; show (i.size + 12) % 12 = 0; omega
        · rw [hl, hw]; exact hroom
        · rw [hl]; exact h3
      · have e1 : toUint64 (i.size + entWidth) = i.size + 12 := by
          simp only [toUint64, entWidth, offWidth, posWidth]; omega
        have hw : i.Write off pos = (Res.error Err.EOF, i) := by
          unfold index.Write
          rw [e1, if_pos (by omega)]
        have hstep : i.run (IndexOp.Write off pos :: ops) = i.run ops := by
          show (match i.Write off pos with
            | (Res.error Err.outOfRange, i1) => i1
            | (_, i1) => i1.run ops) = _
          rw [hw]
        rw [hstep]
        exact ih i h1 h2 h3
    | Read in_ =>
      unfold index.run
      split
      · exact ⟨h1, h2⟩
      · exact ih i h1 h2 h3

theorem index.run_size_lt (ops : List IndexOp) :
    ∀ i : index, i.size < 2 ^ 63 → i.mmap.len < 2 ^ 63 → (i.run ops).size < 2 ^ 63 := by
  induction ops with
  | nil => intro i h1 _; exact h1
  | cons op ops ih =>
    intro i h1 h2
    cases op with
    | Write off pos =>
      have hl := index.Write_len i off pos
      by_cases hroom : i.size + 12 ≤ i.mmap.len
      · have hw := index.Write_room i off pos hroom (by omega)
        have hstep : i.run (IndexOp.Write off pos :: ops) = (i.Write off pos).2.run ops := by
          show (match i.Write off pos with
            | (Res.error Err.outOfRange, i1) => i1
            | (_, i1) => i1.run ops) = _
          rw [hw]
        rw [hstep]
        apply ih
        · rw [hw]; show i.size + 12 < 2 ^ 63; omega
        · rw [hl]; exact h2
      · have e1 : toUint64 (i.size + entWidth) = i.size + 12 := by
          simp only [toUint64, entWidth, offWidth, posWidth]; omega
        have hw : i.Write off pos = (Res.error Err.EOF, i) := by
          unfold index.Write
          rw [e1, if_pos (by omega)]
        have hstep : i.run (IndexOp.Write off pos :: ops) = i.run ops := by
          show (match i.Write off pos with
            | (Res.error Err.outOfRange, i1) => i1
            | (_, i1) => i1.run ops) = _
          rw [hw]
        rw [hstep]
        exact ih i h1 h2
    | Read in_ =>
      unfold index.run
      split
      · exact h1
      · exact ih i h1 h2

/-- In every state reached from `newIndex`, over any backing file (its length an
`int64`) and with any capacity, by any sequence of `Write` and `Read` calls,
`size + 12` does not wrap around: `size` starts as a file length and grows only
while `size + 12` is within the mapped region, whose length is a Go `int`. -/
theorem newIndex_run_no_wrap (file : List Nat) (cap : Nat) (i : index) (ops : List IndexOp)
    (h : newIndex file cap = Res.ok i) (hf : file.length < 2 ^ 63) :
    (i.run ops).size < 2 ^ 63 ∧ (i.run ops).size + 12 < 2 ^ 64 := by
  have hi := newIndex_inv file cap i h
  have hsz : i.size < 2 ^ 63 := by
    rw [hi.2.1]; simp only [toUint64]; omega
  have := index.run_size_lt ops i hsz hi.2.2
  exact ⟨this, by omega⟩

/-- C10, as the code has it. Index size invariant: in every index state reached from
`newIndex`, over a backing file whose length is a multiple of 12 and at most the
configured capacity, by any sequence of `Write` and `Read` calls, `size` is a
multiple of 12 and at most the capacity of the mapped region; and over any backing
file the capacity stays the configured one. -/
theorem index_size_invariant (file : List Nat) (cap : Nat) (i : index) (ops : List IndexOp)
    (h : newIndex file cap = Res.ok i) :
    (i.run ops).mmap.len = toUint64 cap ∧ (i.run ops).mmap.len = i.mmap.len ∧
    (file.length % 12 = 0 → file.length ≤ toUint64 cap →
      (i.run ops).size % 12 = 0 ∧ (i.run ops).size ≤ (i.run ops).mmap.len) := by
  have hi := newIndex_inv file cap i h
  refine ⟨by rw [index.run_len, hi.1], index.run_len ops i, ?_⟩
  intro h12 hle
  have hsz : i.size = file.length := by
    rw [hi.2.1]; simp only [toUint64]; omega
  exact index.run_inv ops i (by omega) (by omega) hi.2.2

theorem index_size_invariant_witness :
    (emptyIndex.run [IndexOp.Write 0 2, IndexOp.Read 0, IndexOp.Write 1 10, IndexOp.Read (-1)]).mmap.len
      = toUint64 1024 ∧
    (emptyIndex.run [IndexOp.Write 0 2, IndexOp.Read 0, IndexOp.Write 1 10, IndexOp.Read (-1)]).size % 12
      = 0 ∧
    (emptyIndex.run [IndexOp.Write 0 2, IndexOp.Read 0, IndexOp.Write 1 10, IndexOp.Read (-1)]).size ≤
      (emptyIndex.run [IndexOp.Write 0 2, IndexOp.Read 0, IndexOp.Write 1 10, IndexOp.Read (-1)]).mmap.len :=
  have h := index_size_invariant [] 1024 emptyIndex
    [IndexOp.Write 0 2, IndexOp.Read 0, IndexOp.Write 1 10, IndexOp.Read (-1)] rfl
  ⟨h.1, h.2.2 (by decide) (by decide)⟩

/-- C10 as stated fails over an arbitrary backing file: `newIndex` over a file of 5
bytes gives `size = 5`, not a multiple of 12, and `newIndex` over a file of 24 bytes
with capacity 12 gives `size = 24` over a mapped region of 12 bytes. -/
theorem index_size_invariant_counterexample :
    ((newIndex [0, 0, 0, 0, 0] 1024).toOption.map (fun i => i.size % 12) = some 5) ∧
    ((newIndex (List.replicate 24 0) 12).toOption.map (fun i => (i.size, i.mmap.len)) =
      some (24, 12)) := by
  decide

theorem index.Read_congr (j k : index) (hsz : k.size = j.size) (hlen : k.mmap.len = j.mmap.len)
    (hb : ∀ a, a < j.size → k.mmap.byte a = j.mmap.byte a) : k.Read (-1) = j.Read (-1) := by
  have he : k.effective (-1) = j.effective (-1) := by
    unfold index.effective
    rw [hsz]
  rw [index.Read_eq, index.Read_eq, he, hsz, hlen]
  by_cases h0 : j.size = 0
  · rw [if_pos h0, if_pos h0]
  · rw [if_neg h0, if_neg h0]
    by_cases h1 : j.size < 12 * j.effective (-1) + 12
    · rw [if_pos h1, if_pos h1]
    · rw [if_neg h1, if_neg h1]
      by_cases h2 : 12 * j.effective (-1) + 12 ≤ j.mmap.len
      · rw [if_pos h2, if_pos h2]
        have hent : k.mmap.entry (j.effective (-1)) = j.mmap.entry (j.effective (-1)) := by
          apply MMap.entry_congr
          intro a _ ha
          exact hb a (by omega)
        rw [hent]
      · rw [if_neg h2, if_neg h2]

/-- C8. Index durability across reopen: for every capacity and every `N ≥ 1` entries
written within it to an index opened over an empty file, `index.Close` leaves a
backing file of exactly `N * 12` bytes, equal to the first `N * 12` bytes of the
mapped region, and `newIndex` over that file with the same capacity gives an index
of size `N * 12` whose `Read(-1)` succeeds with the same pair as `Read(-1)` before
`Close`. -/
theorem index_reopen (cap : Nat) (es : List (Nat × Nat)) (hN : 1 ≤ es.length)
    (hroom : 12 * es.length ≤ cap) (hcap : cap < 2 ^ 63) :
    ∃ i j file k pr, newIndex [] cap = Res.ok i ∧ i.WriteAll es = (Res.ok (), j) ∧
      j.Close = Res.ok file ∧ file.length = 12 * es.length ∧
      j.mmap.slice 0 (12 * es.length) = some file ∧
      newIndex file cap = Res.ok k ∧ k.size = 12 * es.length ∧
      j.Read (-1) = Res.ok pr ∧ k.Read (-1) = Res.ok pr := by
  have hi := newIndex_ok [] cap (by omega) hcap
  obtain ⟨i, hidef⟩ : ∃ i : index, i =
      { mmap := { len := cap, byte := fun a => if a < cap then ([] : List Nat).getD a 0 else 0 }
        size := toUint64 ([] : List Nat).length } := ⟨_, rfl⟩
  rw [← hidef] at hi
  have hilen : i.mmap.len = cap := by rw [hidef]
  have hisz : i.size = 0 := by rw [hidef]; rfl
  have hW := index.WriteAll_Stores es i [] ⟨by simp [hisz], by simp⟩
    (by rw [hilen]; simpa using hroom) (by rw [hilen]; exact hcap)
  obtain ⟨j, hjdef⟩ : ∃ j : index, j = (i.WriteAll es).2 := ⟨_, rfl⟩
  rw [← hjdef] at hW
  have hjsz : j.size = 12 * es.length := by simpa using hW.2.1.1
  have hjlen : j.mmap.len = cap := by rw [hW.2.2, hilen]
  obtain ⟨file, hfdef⟩ : ∃ file : List Nat, file =
      (List.range j.size).map (fun a => if a < j.mmap.len then j.mmap.byte a else 0) := ⟨_, rfl⟩
  have hflen : file.length = 12 * es.length := by rw [hfdef]; simp [hjsz]
  have hclose : j.Close = Res.ok file := by
    unfold index.Close
    have hmod : j.size % 2 ^ 64 = j.size := Nat.mod_eq_of_lt (by omega)
    have : ¬ toInt64 j.size < 0 := by
      unfold toInt64
      rw [hmod, if_pos (by omega)]
      omega
    rw [if_neg this, hfdef]
  have hslice : j.mmap.slice 0 (12 * es.length) = some file := by
    unfold MMap.slice
    rw [if_pos ⟨by omega, by omega⟩, hfdef, hjsz]
    congr 1
    apply List.map_congr_left
    intro a ha
    rw [List.mem_range] at ha
    rw [if_pos (by omega)]
    simp
  have hk := newIndex_ok file cap (by omega) hcap
  obtain ⟨k, hkdef⟩ : ∃ k : index, k =
      { mmap := { len := cap, byte := fun a => if a < cap then file.getD a 0 else 0 }
        size := toUint64 file.length } := ⟨_, rfl⟩
  rw [← hkdef] at hk
  have hksz : k.size = 12 * es.length := by
    rw [hkdef]; show toUint64 file.length = _
    rw [hflen]; simp only [toUint64]; omega
  have hklen : k.mmap.len = cap := by rw [hkdef]
  have hbytes : ∀ a, a < j.size → k.mmap.byte a = j.mmap.byte a := by
    intro a ha
    rw [hkdef]
    show (if a < cap then file.getD a 0 else 0) = _
    rw [if_pos (by omega), hfdef]
    simp [List.getD_eq_getElem?_getD, List.getElem?_map, List.getElem?_range, ha]
    omega
  have hcongr := index.Read_congr j k (by rw [hksz, hjsz]) (by rw [hklen, hjlen]) hbytes
  have heff : 12 * j.effective (-1) + 12 ≤ j.size := by
    unfold index.effective
    simp only [if_true, toUint64, entWidth, offWidth, posWidth]
    omega
  have hread : j.Read (-1) = Res.ok (j.mmap.entry (j.effective (-1))) := by
    rw [index.Read_eq, if_neg (by omega), if_neg (by omega), if_pos (by omega)]
  refine ⟨i, j, file, k, _, hi, ?_, hclose, hflen, hslice, hk, hksz, hread, ?_⟩
  · rw [hjdef]
    exact Prod.ext hW.1 rfl
  · rw [hcongr, hread]

theorem index_reopen_witness :
    ∃ i j file k pr, newIndex [] 1024 = Res.ok i ∧ i.WriteAll [(0, 2), (1, 10)] = (Res.ok (), j) ∧
      j.Close = Res.ok file ∧ file.length = 12 * [(0, 2), (1, 10)].length ∧
      j.mmap.slice 0 (12 * [(0, 2), (1, 10)].length) = some file ∧
      newIndex file 1024 = Res.ok k ∧ k.size = 12 * [(0, 2), (1, 10)].length ∧
      j.Read (-1) = Res.ok pr ∧ k.Read (-1) = Res.ok pr :=
  index_reopen 1024 [(0, 2), (1, 10)] (by decide) (by decide) (by decide)

/-! ## The buffered writer -/

theorem File.Write_whole (f : File) (p : List Nat) (hoff : f.off = f.data.length)
    (hfit : f.data.length + p.length ≤ min f.limit (2 ^ 63 - 1)) :
    f.Write p = (p.length, none, { data := f.data ++ p, off := f.off + p.length, limit := f.limit }) := by
  have hroom : p.length ≤ f.room := by unfold File.room; omega
  unfold File.Write
  simp only [Nat.min_eq_left hroom, lt_irrefl, if_false]
  by_cases hp : p.length = 0
  · have : p = [] := List.length_eq_zero.1 hp
    subst this
    simp
  · simp [hp, hoff]

theorem Writer.Flush_fit (b : Writer) (f : File) (herr : b.err = none)
    (hoff : f.off = f.data.length)
    (hfit : f.data.length + b.buf.length ≤ min f.limit (2 ^ 63 - 1)) :
    b.Flush f = (none, { buf := [], err := none },
      { data := f.data ++ b.buf, off := f.off + b.buf.length, limit := f.limit }) := by
  unfold Writer.Flush
  rw [herr]
  by_cases hb : b.buf.length = 0
  · have hnil : b.buf = [] := List.length_eq_zero.1 hb
    have hbe : b = { buf := [], err := none } := by
      cases b; simp_all
    simp [hnil, hbe]
  · simp only [hb, if_false]
    rw [File.Write_whole f b.buf hoff hfit]
    simp

theorem Writer.writeLoop_done (fuel : Nat) (b : Writer) (f : File) (p : List Nat) (nn : Nat)
    (h : ¬ (b.Available < p.length ∧ b.err = none)) :
    Writer.writeLoop (fuel + 1) b f p nn = (nn, p, b, f) := by
  unfold Writer.writeLoop
  rw [if_neg h]

theorem Writer.writeLoop_direct (fuel : Nat) (b : Writer) (f : File) (p : List Nat) (nn : Nat)
    (h : b.Available < p.length ∧ b.err = none) (h0 : b.Buffered = 0) :
    Writer.writeLoop (fuel + 1) b f p nn =
      Writer.writeLoop fuel { buf := b.buf, err := (f.Write p).2.1 } (f.Write p).2.2
        (p.drop (f.Write p).1) (nn + (f.Write p).1) := by
  conv => lhs; unfold Writer.writeLoop
  rw [if_pos h, if_pos h0]

theorem Writer.writeLoop_fill (fuel : Nat) (b : Writer) (f : File) (p : List Nat) (nn : Nat)
    (h : b.Available < p.length ∧ b.err = none) (h0 : ¬ b.Buffered = 0) :
    Writer.writeLoop (fuel + 1) b f p nn =
      Writer.writeLoop fuel
        (Writer.Flush { buf := b.buf ++ p.take (min b.Available p.length), err := b.err } f).2.1
        (Writer.Flush { buf := b.buf ++ p.take (min b.Available p.length), err := b.err } f).2.2
        (p.drop (min b.Available p.length)) (nn + min b.Available p.length) := by
  conv => lhs; unfold Writer.writeLoop
  rw [if_pos h, if_neg h0]

/-- A `Write` to a writer in working order, over a file with room for everything
written so far and `p`: it takes all of `p` without error and adds `p` to the bytes
written. -/
theorem Writer.Write_fit (b : Writer) (f : File) (p : List Nat) (herr : b.err = none)
    (hlen : b.buf.length ≤ defaultBufSize) (hoff : f.off = f.data.length)
    (hfit : f.data.length + b.buf.length + p.length ≤ min f.limit (2 ^ 63 - 1)) :
    ∃ b1 f1, b.Write f p = (p.length, none, b1, f1) ∧ b1.err = none ∧
      b1.buf.length ≤ defaultBufSize ∧ f1.off = f1.data.length ∧ f1.limit = f.limit ∧
      f1.data ++ b1.buf = f.data ++ b.buf ++ p := by
  have hav : b.Available = defaultBufSize - b.buf.length := rfl
  have hdef : defaultBufSize = 4096 := rfl
  by_cases hc : b.Available < p.length
  · by_cases hb : b.Buffered = 0
    · -- large write, empty buffer: straight to the file
      have hbl : b.buf.length = 0 := hb
      have hnil : b.buf = [] := List.length_eq_zero.1 hbl
      have hw := File.Write_whole f p hoff (by omega)
      have hl : Writer.writeLoop (p.length + 2) b f p 0 =
          (p.length, [], { buf := [], err := none },
            { data := f.data ++ p, off := f.off + p.length, limit := f.limit }) := by
        rw [Writer.writeLoop_direct (p.length + 1) b f p 0 ⟨hc, herr⟩ hb, hw]
        simp only [List.drop_length, Nat.zero_add, hnil]
        exact Writer.writeLoop_done p.length _ _ _ _ (by simp [Writer.Available])
      refine ⟨{ buf := [], err := none },
        { data := f.data ++ p, off := f.off + p.length, limit := f.limit }, ?_, rfl, by simp,
        by simp [hoff], rfl, by simp [hnil]⟩
      unfold Writer.Write
      rw [hl]
      simp
    · -- fill the buffer, flush it, go on with the rest
      have hbl : b.buf.length ≠ 0 := hb
      have hA : b.Available + b.buf.length = 4096 := by rw [hav, hdef]; omega
      have hmin : min b.Available p.length = b.Available := Nat.min_eq_left (le_of_lt hc)
      have htl : (p.take b.Available).length = b.Available := by
        rw [List.length_take]; omega
      have hdl : (p.drop b.Available).length = p.length - b.Available := List.length_drop _ _
      have htd : p.take b.Available ++ p.drop b.Available = p := List.take_append_drop _ _
      obtain ⟨f1, hf1⟩ : ∃ f1 : File, f1 =
          { data := f.data ++ (b.buf ++ p.take b.Available),
            off := f.off + (b.buf ++ p.take b.Available).length, limit := f.limit } := ⟨_, rfl⟩
      have hf1d : f1.data = f.data ++ (b.buf ++ p.take b.Available) := by rw [hf1]
      have hf1o : f1.off = f1.data.length := by rw [hf1]; simp [hoff]
      have hf1l : f1.limit = f.limit := by rw [hf1]
      have hf1n : f1.data.length = f.data.length + 4096 := by
        rw [hf1d]; simp only [List.length_append, htl]; omega
      have hfl : Writer.Flush { buf := b.buf ++ p.take b.Available, err := none } f =
          (none, { buf := [], err := none }, f1) := by
        rw [hf1]
        exact Writer.Flush_fit { buf := b.buf ++ p.take b.Available, err := none } f rfl hoff
          (by simp only [List.length_append, htl]; omega)
      have hstep : Writer.writeLoop (p.length + 2) b f p 0 =
          Writer.writeLoop (p.length + 1) { buf := [], err := none } f1
            (p.drop b.Available) (0 + b.Available) := by
        rw [Writer.writeLoop_fill (p.length + 1) b f p 0 ⟨hc, herr⟩ hb, hmin, herr, hfl]
      have hav0 : Writer.Available { buf := [], err := none } = 4096 := rfl
      by_cases hc2 : 4096 < (p.drop b.Available).length
      · -- the rest is larger than the buffer: straight to the file
        obtain ⟨f2, hf2⟩ : ∃ f2 : File, f2 =
            { data := f1.data ++ p.drop b.Available,
              off := f1.off + (p.drop b.Available).length, limit := f1.limit } := ⟨_, rfl⟩
        have hw : f1.Write (p.drop b.Available) = ((p.drop b.Available).length, none, f2) := by
          rw [hf2]
          exact File.Write_whole f1 (p.drop b.Available) hf1o (by rw [hf1l]; omega)
        obtain ⟨m, hm⟩ : ∃ m, p.length = m + 1 := ⟨p.length - 1, by omega⟩
        have hl : Writer.writeLoop (p.length + 2) b f p 0 =
            (0 + b.Available + (p.drop b.Available).length, [], { buf := [], err := none }, f2) := by
          rw [hstep, Writer.writeLoop_direct p.length { buf := [], err := none } f1 _ _
            ⟨by rw [hav0]; exact hc2, rfl⟩ rfl, hw]
          simp only [List.drop_length]
          rw [hm]
          exact Writer.writeLoop_done _ _ _ _ _ (by simp [Writer.Available])
        have hcount : 0 + b.Available + (p.drop b.Available).length = p.length := by omega
        refine ⟨{ buf := [], err := none }, f2, ?_, rfl, by simp, ?_, ?_, ?_⟩
        · unfold Writer.Write
          rw [hl, hcount]
          simp
        · rw [hf2]; simp [hf1o]
        · rw [hf2]; exact hf1l
        · rw [hf2]
          show (f1.data ++ p.drop b.Available) ++ [] = f.data ++ b.buf ++ p
          rw [hf1d, List.append_nil]
          conv => rhs; rw [← htd]
          simp only [List.append_assoc]
      · -- the rest fits the buffer
        have hl : Writer.writeLoop (p.length + 2) b f p 0 =
            (0 + b.Available, p.drop b.Available, { buf := [], err := none }, f1) := by
          rw [hstep]
          exact Writer.writeLoop_done _ _ _ _ _ (by rw [hav0]; exact fun h => hc2 h.1)
        have hm : min (Writer.Available { buf := [], err := none }) (p.drop b.Available).length
            = (p.drop b.Available).length := by
          rw [hav0]; exact Nat.min_eq_right (by omega)
        have hcount : 0 + b.Available + (p.drop b.Available).length = p.length := by omega
        refine ⟨{ buf := p.drop b.Available, err := none }, f1, ?_, rfl, ?_, hf1o, hf1l, ?_⟩
        · unfold Writer.Write
          rw [hl]
          simp only [hm, List.take_length, List.nil_append, hcount]
        · show (p.drop b.Available).length ≤ defaultBufSize
          rw [hdef]; omega
        · show f1.data ++ p.drop b.Available = f.data ++ b.buf ++ p
          rw [hf1d]
          conv => rhs; rw [← htd]
          simp only [List.append_assoc]
  · -- everything fits the buffer
    have hl : Writer.writeLoop (p.length + 2) b f p 0 = (0, p, b, f) :=
      Writer.writeLoop_done (p.length + 1) b f p 0 (fun h => hc h.1)
    have hm : min b.Available p.length = p.length := Nat.min_eq_right (le_of_not_lt hc)
    refine ⟨{ buf := b.buf ++ p, err := none }, f, ?_, rfl, ?_, hoff, rfl, by simp⟩
    · unfold Writer.Write
      rw [hl]
      simp [herr, hm]
    · simp only [List.length_append]; omega

theorem File.Write_short (f : File) (p : List Nat) :
    (f.Write p).1 ≤ p.length ∧ ((f.Write p).2.1 = none → (f.Write p).1 = p.length) := by
  unfold File.Write
  simp only []
  refine ⟨Nat.min_le_left _ _, ?_⟩
  intro h
  by_cases hlt : min p.length f.room < p.length
  · rw [if_pos hlt] at h; cases h
  · have := Nat.min_le_left p.length f.room
    omega

theorem Writer.Flush_cases (b : Writer) (f : File) (herr : b.err = none)
    (hne : b.buf.length ≠ 0) :
    (∃ e, (b.Flush f).2.1.err = some e) ∨ (b.Flush f).2.1 = { buf := [], err := none } := by
  unfold Writer.Flush
  rw [herr]
  simp only [hne, if_false]
  split
  · left; exact ⟨_, rfl⟩
  · right; rfl

/-- The loop of `Write` is left by its condition within the iterations allowed, and
the count and the rest of `p` add up to what was there: when it ends without error
the rest fits the buffer. -/
theorem Writer.writeLoop_exit (b : Writer) (f : File) (p : List Nat) (nn : Nat) :
    (Writer.writeLoop (p.length + 2) b f p nn).2.2.1.err = none →
      (Writer.writeLoop (p.length + 2) b f p nn).2.1.length ≤
        (Writer.writeLoop (p.length + 2) b f p nn).2.2.1.Available ∧
      (Writer.writeLoop (p.length + 2) b f p nn).1 +
        (Writer.writeLoop (p.length + 2) b f p nn).2.1.length = nn + p.length := by
  -- one direct write ends the loop at the next test
  have direct : ∀ (fuel : Nat) (b0 : Writer) (f0 : File) (q : List Nat) (k : Nat), 2 ≤ fuel →
      (b0.Available < q.length ∧ b0.err = none) → b0.Buffered = 0 →
      (Writer.writeLoop fuel b0 f0 q k).2.2.1.err = none →
        (Writer.writeLoop fuel b0 f0 q k).2.1.length ≤
          (Writer.writeLoop fuel b0 f0 q k).2.2.1.Available ∧
        (Writer.writeLoop fuel b0 f0 q k).1 +
          (Writer.writeLoop fuel b0 f0 q k).2.1.length = k + q.length := by
    intro fuel0 b0 f0 q k hfuel hc h0
    obtain ⟨fuel, rfl⟩ : ∃ m, fuel0 = m + 2 := ⟨fuel0 - 2, by omega⟩
    have hcnt := File.Write_short f0 q
    rw [Writer.writeLoop_direct (fuel + 1) b0 f0 q k hc h0]
    by_cases he : (f0.Write q).2.1 = none
    · have hk := hcnt.2 he
      rw [Writer.writeLoop_done fuel _ _ _ _ (by simp [hk])]
      intro _
      simp [hk]
    · rw [Writer.writeLoop_done fuel _ _ _ _ (by simp [he])]
      intro h
      exact absurd h he
  by_cases hc : b.Available < p.length ∧ b.err = none
  · by_cases h0 : b.Buffered = 0
    · exact direct (p.length + 2) b f p nn (by omega) hc h0
    · rw [Writer.writeLoop_fill (p.length + 1) b f p nn hc h0]
      have hbne : (b.buf ++ p.take (min b.Available p.length)).length ≠ 0 := by
        have : b.buf.length ≠ 0 := h0
        simp only [List.length_append]; omega
      have hn : min b.Available p.length ≤ p.length := Nat.min_le_right _ _
      have hdl : (p.drop (min b.Available p.length)).length = p.length - min b.Available p.length :=
        List.length_drop _ _
      rcases Writer.Flush_cases { buf := b.buf ++ p.take (min b.Available p.length), err := b.err } f
        hc.2 hbne with ⟨e, he⟩ | hb2
      · rw [Writer.writeLoop_done p.length _ _ _ _ (by simp [he])]
        intro h
        rw [he] at h
        cases h
      · rw [hb2]
        by_cases hc2 : Writer.Available { buf := [], err := none } <
            (p.drop (min b.Available p.length)).length ∧
            Writer.err { buf := [], err := none } = none
        · have h4096 : 4096 < (p.drop (min b.Available p.length)).length := hc2.1
          intro h
          have := direct (p.length + 1) _ _ _ _ (by omega) hc2 rfl h
          refine ⟨this.1, ?_⟩
          rw [this.2, hdl]
          omega
        · rw [Writer.writeLoop_done p.length _ _ _ _ hc2]
          intro _
          refine ⟨?_, ?_⟩
          · have : ¬ (Writer.Available { buf := [], err := none } <
                (p.drop (min b.Available p.length)).length) := fun h => hc2 ⟨h, rfl⟩
            exact Nat.le_of_not_lt this
          · show nn + min b.Available p.length + (p.drop (min b.Available p.length)).length = _
            rw [hdl]; omega
  · rw [Writer.writeLoop_done (p.length + 1) b f p nn hc]
    intro h
    refine ⟨?_, rfl⟩
    have : ¬ (b.Available < p.length) := fun hlt => hc ⟨hlt, h⟩
    exact Nat.le_of_not_lt this

/-- A `Write` that returns no error has taken all of `p`. -/
theorem Writer.Write_count (b : Writer) (f : File) (p : List Nat)
    (h : (b.Write f p).2.1 = none) : (b.Write f p).1 = p.length := by
  unfold Writer.Write at h ⊢
  dsimp only at h ⊢
  have hx := Writer.writeLoop_exit b f p 0
  cases herr : (Writer.writeLoop (p.length + 2) b f p 0).2.2.1.err with
  | some e =>
    rw [herr] at h
    cases h
  | none =>
    have hx2 := hx herr
    simp only [herr]
    show (Writer.writeLoop (p.length + 2) b f p 0).1 +
      min (Writer.writeLoop (p.length + 2) b f p 0).2.2.1.Available
        (Writer.writeLoop (p.length + 2) b f p 0).2.1.length = p.length
    rw [Nat.min_eq_right hx2.1]
    omega

/-! ## The store -/

theorem PutUint64_length (v : Nat) : (PutUint64 v).length = 8 := rfl

theorem toInt64_natCast (n : Nat) (h : n < 2 ^ 63) : toInt64 n = (n : Int) := by
  unfold toInt64
  have hm : n % 2 ^ 64 = n := Nat.mod_eq_of_lt (by omega)
  rw [hm, if_pos h]

theorem File.ReadAt_mid (f : File) (a x b : List Nat) (hd : f.data = a ++ x ++ b) :
    f.ReadAt x.length (a.length : Int) = (x, none) := by
  unfold File.ReadAt
  have hneg : ¬ ((a.length : Int) < 0) := by omega
  rw [if_neg hneg, hd]
  simp

/-- An `Append` to a store in working order, over a file with room for the bytes
written so far and the new frame: it succeeds with `(8 + len(p), size)` and adds the
frame of `p` to the bytes written. -/
theorem store.Append_fit (s : store) (p : List Nat) (hg : s.Good)
    (hfit : s.content.length + 8 + p.length ≤ min s.File.limit (2 ^ 63 - 1)) :
    ∃ s1, s.Append p = (Res.ok (8 + p.length, s.size), s1) ∧ s1.Good ∧
      s1.content = s.content ++ (PutUint64 p.length ++ p) ∧ s1.File.limit = s.File.limit := by
  obtain ⟨herr, hlen, hoff, hsize⟩ := hg
  have hcl : s.content.length = s.File.data.length + s.buf.buf.length := by
    simp [store.content]
  have hpl : toUint64 p.length = p.length := by simp only [toUint64]; omega
  obtain ⟨b1, f1, hw1, herr1, hlen1, hoff1, hlim1, hcont1⟩ :=
    Writer.Write_fit s.buf s.File (PutUint64 p.length) herr hlen hoff
      (by rw [PutUint64_length]; omega)
  have hc1 : f1.data.length + b1.buf.length = s.content.length + 8 := by
    have := congrArg List.length hcont1
    simp only [List.length_append, PutUint64_length] at this
    omega
  obtain ⟨b2, f2, hw2, herr2, hlen2, hoff2, hlim2, hcont2⟩ :=
    Writer.Write_fit b1 f1 p herr1 hlen1 hoff1 (by rw [hlim1]; omega)
  have hw : toUint64 (p.length + lenWidth) = 8 + p.length := by
    simp only [toUint64, lenWidth]; omega
  have hsz : toUint64 (s.size + (8 + p.length)) = s.content.length + 8 + p.length := by
    simp only [toUint64, hsize]; omega
  refine ⟨{ File := f2, buf := b2, size := s.content.length + 8 + p.length }, ?_, ?_, ?_, ?_⟩
  · unfold store.Append
    rw [hpl, hw1]
    simp only []
    rw [hw2]
    simp only [hw, hsz]
  · refine ⟨herr2, hlen2, hoff2, ?_⟩
    show s.content.length + 8 + p.length = (f2.data ++ b2.buf).length
    rw [hcont2, hcont1]
    simp only [List.length_append, PutUint64_length, store.content]
  · show f2.data ++ b2.buf = s.content ++ (PutUint64 p.length ++ p)
    rw [hcont2, hcont1]
    simp only [store.content, List.append_assoc]
  · show f2.limit = s.File.limit
    rw [hlim2, hlim1]

/-- The flush at the head of `Read`, `ReadAt` and `Close`, on a store in working
order over a file with room: all bytes written are in the file afterwards. -/
theorem store.flush_to_file (s : store) (hg : s.Good)
    (hfit : s.content.length ≤ min s.File.limit (2 ^ 63 - 1)) :
    s.buf.Flush s.File = (none, { buf := [], err := none },
      { data := s.content, off := s.File.off + s.buf.buf.length, limit := s.File.limit }) := by
  obtain ⟨herr, _, hoff, _⟩ := hg
  exact Writer.Flush_fit s.buf s.File herr hoff (by simpa [store.content] using hfit)

theorem store.Good_flushed (s : store) (hg : s.Good) :
    store.Good { File := { data := s.content, off := s.File.off + s.buf.buf.length,
                           limit := s.File.limit },
                 buf := { buf := [], err := none }, size := s.size } := by
  obtain ⟨_, _, hoff, hsize⟩ := hg
  refine ⟨rfl, by simp, ?_, ?_⟩
  · simp [store.content, hoff]
  · simp [store.content] at hsize ⊢
    exact hsize

theorem store.Read_state (s : store) (pos : Nat) (hg : s.Good)
    (hfit : s.content.length ≤ min s.File.limit (2 ^ 63 - 1)) :
    (s.Read pos).2 = { File := { data := s.content, off := s.File.off + s.buf.buf.length,
                                 limit := s.File.limit },
                       buf := { buf := [], err := none }, size := s.size } := by
  unfold store.Read
  rw [store.flush_to_file s hg hfit]
  simp only []
  repeat' split
  all_goals rfl

theorem store.ReadAt_state (s : store) (n : Nat) (off : Int) (hg : s.Good)
    (hfit : s.content.length ≤ min s.File.limit (2 ^ 63 - 1)) :
    (s.ReadAt n off).2 = { File := { data := s.content, off := s.File.off + s.buf.buf.length,
                                     limit := s.File.limit },
                           buf := { buf := [], err := none }, size := s.size } := by
  unfold store.ReadAt
  rw [store.flush_to_file s hg hfit]

/-- A `Read` at the start position of a frame, on a store in working order over a
file with room: it returns the payload of the frame. -/
theorem store.Read_frame (s : store) (pos : Nat) (p : List Nat) (hg : s.Good)
    (hfit : s.content.length ≤ min s.File.limit (2 ^ 63 - 1))
    (hf : Framed s.content pos p) : (s.Read pos).1 = Res.ok p := by
  obtain ⟨a, b, hc, ha⟩ := hf
  have hlen : a.length + 8 + p.length + b.length = s.content.length := by
    rw [hc]; simp only [List.length_append, PutUint64_length]; omega
  have hpos : pos < 2 ^ 63 := by omega
  have h1 : toInt64 pos = (a.length : Int) := by rw [toInt64_natCast pos hpos, ha]
  have h2 : toInt64 (toUint64 (pos + lenWidth)) = ((a ++ PutUint64 p.length).length : Int) := by
    have : toUint64 (pos + lenWidth) = pos + 8 := by simp only [toUint64, lenWidth]; omega
    rw [this, toInt64_natCast _ (by omega)]
    simp only [List.length_append, PutUint64_length, ha]
  obtain ⟨f1, hf1⟩ : ∃ f1 : Log.File, f1 =
      { data := s.content, off := s.File.off + s.buf.buf.length, limit := s.File.limit } :=
    ⟨_, rfl⟩
  have hfl : s.buf.Flush s.File = (none, { buf := [], err := none }, f1) := by
    rw [hf1]; exact store.flush_to_file s hg hfit
  have hf1d : f1.data = s.content := by rw [hf1]
  have r1 : f1.ReadAt lenWidth (a.length : Int) = (PutUint64 p.length, none) :=
    File.ReadAt_mid f1 a (PutUint64 p.length) (p ++ b)
      (by rw [hf1d, hc]; simp only [List.append_assoc])
  have r2 : f1.ReadAt p.length ((a ++ PutUint64 p.length).length : Int) = (p, none) :=
    File.ReadAt_mid f1 (a ++ PutUint64 p.length) p b
      (by rw [hf1d, hc]; simp only [List.append_assoc])
  have hu : Uint64 (PutUint64 p.length) = p.length := by
    rw [Uint64_PutUint64]; exact Nat.mod_eq_of_lt (by omega)
  unfold store.Read
  rw [hfl]
  simp only [h1, h2, r1, hu]
  rw [if_neg (by omega), r2]

theorem store.run_Append (s : store) (p : List Nat) (ops : List Op) (r : Nat × Nat)
    (s1 : store) (h : s.Append p = (Res.ok r, s1)) :
    s.run (Op.Append p :: ops) = ((r.2, p) :: (s1.run ops).1, (s1.run ops).2) := by
  conv => lhs; unfold store.run
  rw [h]

theorem store.run_Read (s : store) (pos : Nat) (ops : List Op) :
    s.run (Op.Read pos :: ops) =
      if (s.Read pos).1 = Res.error Err.outOfRange then ([], (s.Read pos).2)
      else (s.Read pos).2.run ops := by
  conv => lhs; unfold store.run
  rcases hR : s.Read pos with ⟨r, s1⟩
  cases r with
  | ok a => simp
  | error e => cases e <;> simp

theorem store.run_ReadAt (s : store) (n : Nat) (off : Int) (ops : List Op) :
    s.run (Op.ReadAt n off :: ops) = (s.ReadAt n off).2.run ops := by
  conv => lhs; unfold store.run

theorem store.content_flushed (s : store) :
    store.content { File := { data := s.content, off := s.File.off + s.buf.buf.length,
                              limit := s.File.limit },
                    buf := { buf := [], err := none }, size := s.size } = s.content := by
  simp [store.content]

theorem Framed.append {c : List Nat} {pos : Nat} {p : List Nat} (h : Framed c pos p)
    (t : List Nat) : Framed (c ++ t) pos p := by
  obtain ⟨a, b, hc, ha⟩ := h
  exact ⟨a, b ++ t, by rw [hc]; simp only [List.append_assoc], ha⟩

/-- A sequence of calls on a store in working order, over a file with room for the
bytes written so far and the frames to come: the store stays in working order, the
bytes written only grow, and every `Append` recorded has its frame at its start
position. -/
theorem store.run_fit (ops : List Op) :
    ∀ s : store, s.Good → s.content.length + Op.need ops ≤ min s.File.limit (2 ^ 63 - 1) →
      (s.run ops).2.Good ∧ (s.run ops).2.File.limit = s.File.limit ∧
      (∃ t, (s.run ops).2.content = s.content ++ t) ∧
      (s.run ops).2.content.length ≤ s.content.length + Op.need ops ∧
      ∀ e ∈ (s.run ops).1, Framed (s.run ops).2.content e.1 e.2 := by
  induction ops with
  | nil =>
    intro s hg _
    exact ⟨hg, rfl, ⟨[], by simp [store.run]⟩, by simp [store.run, Op.need], by simp [store.run]⟩
  | cons op ops ih =>
    intro s hg hfit
    cases op with
    | Append p =>
      have hneed : Op.need (Op.Append p :: ops) = 8 + p.length + Op.need ops := rfl
      obtain ⟨s1, hA, hg1, hc1, hl1⟩ := store.Append_fit s p hg (by omega)
      have hlen1 : s1.content.length = s.content.length + 8 + p.length := by
        rw [hc1]; simp only [List.length_append, PutUint64_length]; omega
      obtain ⟨hG, hL, ⟨t, hT⟩, hN, hE⟩ := ih s1 hg1 (by rw [hl1]; omega)
      rw [store.run_Append s p ops _ s1 hA]
      dsimp only
      refine ⟨hG, by rw [hL, hl1], ⟨(PutUint64 p.length ++ p) ++ t, ?_⟩, by omega, ?_⟩
      · show (s1.run ops).2.content = _
        rw [hT, hc1]; simp only [List.append_assoc]
      · intro e he
        rcases List.mem_cons.1 he with h0 | h1
        · subst h0
          show Framed (s1.run ops).2.content s.size p
          rw [hT, hc1]
          exact ⟨s.content, t, rfl, hg.2.2.2.symm⟩
        · exact hE e h1
    | Read pos =>
      have hneed : Op.need (Op.Read pos :: ops) = Op.need ops := rfl
      have hst := store.Read_state s pos hg (by omega)
      have hg1 := store.Good_flushed s hg
      have hc1 := store.content_flushed s
      rw [store.run_Read]
      by_cases hp : (s.Read pos).1 = Res.error Err.outOfRange
      · rw [if_pos hp, hst]
        exact ⟨hg1, rfl, ⟨[], by rw [hc1]; simp⟩, by rw [hc1]; omega, by simp⟩
      · rw [if_neg hp, hst]
        obtain ⟨hG, hL, ⟨t, hT⟩, hN, hE⟩ := ih _ hg1 (by rw [hc1]; show _ ≤ min s.File.limit _; omega)
        rw [hc1] at hT hN
        exact ⟨hG, hL, ⟨t, hT⟩, by omega, hE⟩
    | ReadAt n off =>
      have hneed : Op.need (Op.ReadAt n off :: ops) = Op.need ops := rfl
      have hst := store.ReadAt_state s n off hg (by omega)
      have hg1 := store.Good_flushed s hg
      have hc1 := store.content_flushed s
      rw [store.run_ReadAt, hst]
      obtain ⟨hG, hL, ⟨t, hT⟩, hN, hE⟩ := ih _ hg1 (by rw [hc1]; show _ ≤ min s.File.limit _; omega)
      rw [hc1] at hT hN
      exact ⟨hG, hL, ⟨t, hT⟩, by omega, hE⟩

/-- With no `Read` among the calls, every `Append` of the sequence is recorded. -/
theorem store.run_payloads (ops : List Op) :
    ∀ s : store, s.Good → s.content.length + Op.need ops ≤ min s.File.limit (2 ^ 63 - 1) →
      (∀ op ∈ ops, op.isRead = false) → (s.run ops).1.map Prod.snd = Op.payloads ops := by
  induction ops with
  | nil => intro s _ _ _; rfl
  | cons op ops ih =>
    intro s hg hfit hnr
    have hnr1 : ∀ op ∈ ops, op.isRead = false := fun o ho => hnr o (List.mem_cons_of_mem _ ho)
    cases op with
    | Append p =>
      have hneed : Op.need (Op.Append p :: ops) = 8 + p.length + Op.need ops := rfl
      obtain ⟨s1, hA, hg1, hc1, hl1⟩ := store.Append_fit s p hg (by omega)
      have hlen1 : s1.content.length = s.content.length + 8 + p.length := by
        rw [hc1]; simp only [List.length_append, PutUint64_length]; omega
      rw [store.run_Append s p ops _ s1 hA]
      show p :: (s1.run ops).1.map Prod.snd = p :: Op.payloads ops
      rw [ih s1 hg1 (by rw [hl1]; omega) hnr1]
    | Read pos =>
      have := hnr (Op.Read pos) (List.mem_cons_self _ _)
      cases this
    | ReadAt n off =>
      have hneed : Op.need (Op.ReadAt n off :: ops) = Op.need ops := rfl
      have hst := store.ReadAt_state s n off hg (by omega)
      have hg1 := store.Good_flushed s hg
      have hc1 := store.content_flushed s
      rw [store.run_ReadAt, hst]
      exact ih _ hg1 (by rw [hc1]; show _ ≤ min s.File.limit _; omega) hnr1

theorem newStore_empty_Good (limit : Nat) : (newStore (File.empty limit)).Good :=
  ⟨rfl, by simp [newStore], rfl, rfl⟩

/-- C5. Store framing round trip: for every sequence of `Append`, `Read` and `ReadAt`
calls on a store opened over an empty file, on a device with room for the frames
appended, `store.Read` at the start position of every `Append` made returns exactly
its payload, empty payloads included, whatever calls (each of which flushes) came in
between; and with no `Read` among the calls every `Append` of the sequence succeeds
and is among them. -/
theorem store_round_trip (limit : Nat) (ops : List Op)
    (hroom : Op.need ops ≤ min limit (2 ^ 63 - 1)) :
    (∀ e ∈ ((newStore (File.empty limit)).run ops).1,
      (((newStore (File.empty limit)).run ops).2.Read e.1).1 = Res.ok e.2) ∧
    ((∀ op ∈ ops, op.isRead = false) →
      ((newStore (File.empty limit)).run ops).1.map Prod.snd = Op.payloads ops) := by
  have hg := newStore_empty_Good limit
  have hc0 : (newStore (File.empty limit)).content.length = 0 := rfl
  have hl0 : (newStore (File.empty limit)).File.limit = limit := rfl
  have hfit : (newStore (File.empty limit)).content.length + Op.need ops ≤
      min (newStore (File.empty limit)).File.limit (2 ^ 63 - 1) := by
    rw [hc0, hl0]; omega
  obtain ⟨hG, hL, _, hN, hE⟩ := store.run_fit ops _ hg hfit
  refine ⟨?_, store.run_payloads ops _ hg hfit⟩
  intro e he
  exact store.Read_frame _ e.1 e.2 hG (by rw [hL, hl0]; omega) (hE e he)

theorem store_round_trip_witness :
    (((newStore (File.empty (2 ^ 40))).run
        [Op.Append write, Op.ReadAt 8 0, Op.Append [], Op.Append write]).2.Read 24).1 = Res.ok [] ∧
    ((newStore (File.empty (2 ^ 40))).run
        [Op.Append write, Op.ReadAt 8 0, Op.Append [], Op.Append write]).1.map Prod.snd =
      [write, [], write] :=
  have h := store_round_trip (2 ^ 40)
    [Op.Append write, Op.ReadAt 8 0, Op.Append [], Op.Append write] (by decide)
  ⟨h.1 (24, []) (by decide), h.2 (by decide)⟩

theorem store.Append_ok (s : store) (p : List Nat) (n pos : Nat) (s1 : store)
    (h : s.Append p = (Res.ok (n, pos), s1)) :
    n = toUint64 (p.length + lenWidth) ∧ pos = s.size ∧
    s1.size = toUint64 (s.size + toUint64 (p.length + lenWidth)) := by
  unfold store.Append at h
  dsimp only at h
  split at h
  · cases h
  · split at h
    · cases h
    · rename_i h2
      have hcount := Writer.Write_count _ _ _ h2
      rw [hcount] at h
      simp only [Prod.mk.injEq, Res.ok.injEq] at h
      obtain ⟨⟨hn, hpos⟩, hs1⟩ := h
      refine ⟨hn.symm, hpos.symm, ?_⟩
      rw [← hs1]

theorem store.run_Append_error (s : store) (p : List Nat) (ops : List Op) (e : Err)
    (s1 : store) (h : s.Append p = (Res.error e, s1)) :
    s.run (Op.Append p :: ops) = s1.run ops := by
  conv => lhs; unfold store.run
  rw [h]

theorem store.run_length_le (ops : List Op) : ∀ s : store, (s.run ops).1.length ≤ ops.length := by
  induction ops with
  | nil => intro s; simp [store.run]
  | cons op ops ih =>
    intro s
    cases op with
    | Append p =>
      rcases hA : s.Append p with ⟨r, s1⟩
      cases r with
      | ok a =>
        rw [store.run_Append s p ops a s1 hA]
        have := ih s1
        simp only [List.length_cons]
        omega
      | error e =>
        rw [store.run_Append_error s p ops e s1 hA]
        have := ih s1
        simp only [List.length_cons]
        omega
    | Read pos =>
      rw [store.run_Read]
      split
      · simp
      · have := ih (s.Read pos).2
        simp only [List.length_cons]
        omega
    | ReadAt n off =>
      rw [store.run_ReadAt]
      have := ih (s.ReadAt n off).2
      simp only [List.length_cons]
      omega

theorem store.run_appends_size (ps : List (List Nat)) :
    ∀ s : store, s.size < 2 ^ 64 → (∀ p ∈ ps, p.length < 2 ^ 63) →
      (s.run (ps.map Op.Append)).1.length = ps.length →
      (s.run (ps.map Op.Append)).2.size = (s.size + Op.need (ps.map Op.Append)) % 2 ^ 64 ∧
      ∀ i pos p, (s.run (ps.map Op.Append)).1[i]? = some (pos, p) →
        (pos + (8 + p.length)) % 2 ^ 64 =
          (s.size + Op.need ((ps.take (i + 1)).map Op.Append)) % 2 ^ 64 := by
  induction ps with
  | nil =>
    intro s hs _ _
    refine ⟨?_, ?_⟩
    · show s.size = (s.size + 0) % 2 ^ 64
      omega
    · intro i pos p h
      simp [store.run] at h
  | cons q ps ih =>
    intro s hs hp hlen
    have hq : q.length < 2 ^ 63 := hp q (List.mem_cons_self _ _)
    have hp1 : ∀ p ∈ ps, p.length < 2 ^ 63 := fun p h => hp p (List.mem_cons_of_mem _ h)
    have hmap : (q :: ps).map Op.Append = Op.Append q :: ps.map Op.Append := rfl
    rw [hmap] at hlen ⊢
    rcases hA : s.Append q with ⟨r, s1⟩
    cases r with
    | error e =>
      rw [store.run_Append_error s q _ e s1 hA] at hlen
      have := store.run_length_le (ps.map Op.Append) s1
      simp only [List.length_map, List.length_cons] at this hlen
      omega
    | ok a =>
      obtain ⟨n, pos0⟩ := a
      obtain ⟨hn, hpos, hsz⟩ := store.Append_ok s q n pos0 s1 hA
      rw [store.run_Append s q _ (n, pos0) s1 hA] at hlen ⊢
      dsimp only at hlen ⊢
      simp only [List.length_cons, Nat.add_right_cancel_iff] at hlen
      have hs1 : s1.size < 2 ^ 64 := by
        rw [hsz]; exact Nat.mod_lt _ (by norm_num)
      obtain ⟨ih1, ih2⟩ := ih s1 hs1 hp1 hlen
      have hsz2 : s1.size = (s.size + (8 + q.length)) % 2 ^ 64 := by
        rw [hsz]; simp only [toUint64, lenWidth]; omega
      have hneed : Op.need (Op.Append q :: ps.map Op.Append) =
          8 + q.length + Op.need (ps.map Op.Append) := rfl
      refine ⟨?_, ?_⟩
      · rw [ih1, hneed, hsz2]; omega
      · intro i pos p h
        cases i with
        | zero =>
          simp only [List.getElem?_cons_zero, Option.some.injEq, Prod.mk.injEq] at h
          obtain ⟨h1, h2⟩ := h
          have : Op.need ((List.take (0 + 1) (q :: ps)).map Op.Append) = 8 + q.length + 0 := rfl
          rw [this, ← h2, ← h1, hpos, Nat.add_zero]
        | succ i =>
          simp only [List.getElem?_cons_succ] at h
          have h3 := ih2 i pos p h
          have : Op.need ((List.take (i + 1 + 1) (q :: ps)).map Op.Append) =
              8 + q.length + Op.need ((List.take (i + 1) ps).map Op.Append) := rfl
          rw [this, h3, hsz2]; omega

/-- C6. Store append result and size accounting: for every store state and payload
`p`, a successful `store.Append(p)` returns `(8 + len(p), s)` with `s` the size before
the call and sets `size` to `s + 8 + len(p)` (a `uint64`); hence after appending
`p_1..p_n` to an empty store, `size` equals the sum of `8 + len(p_i)` and `pos + n` of
the `i`-th call equals the running sum through `i`, both as `uint64`, so exactly when
the sum is below `2^64`. -/
theorem store_Append_size :
    (∀ (s : store) (p : List Nat) (n pos : Nat) (s1 : store), p.length < 2 ^ 63 →
      s.Append p = (Res.ok (n, pos), s1) →
      n = 8 + p.length ∧ pos = s.size ∧ s1.size = (s.size + (8 + p.length)) % 2 ^ 64) ∧
    (∀ (limit : Nat) (ps : List (List Nat)), (∀ p ∈ ps, p.length < 2 ^ 63) →
      ((newStore (File.empty limit)).run (ps.map Op.Append)).1.length = ps.length →
      ((newStore (File.empty limit)).run (ps.map Op.Append)).2.size =
        Op.need (ps.map Op.Append) % 2 ^ 64 ∧
      (∀ i pos p, ((newStore (File.empty limit)).run (ps.map Op.Append)).1[i]? = some (pos, p) →
        (pos + (8 + p.length)) % 2 ^ 64 =
          Op.need ((ps.take (i + 1)).map Op.Append) % 2 ^ 64) ∧
      (Op.need (ps.map Op.Append) < 2 ^ 64 →
        ((newStore (File.empty limit)).run (ps.map Op.Append)).2.size =
          Op.need (ps.map Op.Append))) := by
  refine ⟨?_, ?_⟩
  · intro s p n pos s1 hp h
    obtain ⟨hn, hpos, hsz⟩ := store.Append_ok s p n pos s1 h
    refine ⟨?_, hpos, ?_⟩
    · rw [hn]; simp only [toUint64, lenWidth]; omega
    · rw [hsz]; simp only [toUint64, lenWidth]; omega
  · intro limit ps hp hlen
    have h0 : (newStore (File.empty limit)).size = 0 := rfl
    obtain ⟨h1, h2⟩ := store.run_appends_size ps (newStore (File.empty limit))
      (by rw [h0]; norm_num) hp hlen
    rw [h0, Nat.zero_add] at h1
    refine ⟨h1, ?_, ?_⟩
    · intro i pos p h
      have := h2 i pos p h
      rw [h0, Nat.zero_add] at this
      exact this
    · intro hlt
      rw [h1, Nat.mod_eq_of_lt hlt]

theorem store_Append_size_witness :
    ((24 : Nat) = 8 + write.length ∧ (0 : Nat) = (newStore (File.empty (2 ^ 40))).size ∧
      ((newStore (File.empty (2 ^ 40))).Append write).2.size =
        ((newStore (File.empty (2 ^ 40))).size + (8 + write.length)) % 2 ^ 64) ∧
    ((newStore (File.empty (2 ^ 40))).run ([write, [], write].map Op.Append)).2.size =
      Op.need ([write, [], write].map Op.Append) :=
  ⟨store_Append_size.1 (newStore (File.empty (2 ^ 40))) write 24 0
      ((newStore (File.empty (2 ^ 40))).Append write).2 (by decide) rfl,
   ((store_Append_size.2 (2 ^ 40) [write, [], write] (by decide) (by decide)).2.2) (by decide)⟩

theorem Writer.Write_buffered (b : Writer) (f : File) (p : List Nat) (herr : b.err = none)
    (hfit : b.buf.length + p.length ≤ 4096) :
    b.Write f p = (p.length, none, { buf := b.buf ++ p, err := none }, f) := by
  have hc : ¬ (b.Available < p.length ∧ b.err = none) := by
    intro h
    have : 4096 - b.buf.length < p.length := h.1
    omega
  have hl : Writer.writeLoop (p.length + 2) b f p 0 = (0, p, b, f) :=
    Writer.writeLoop_done (p.length + 1) b f p 0 hc
  have hm : min b.Available p.length = p.length :=
    Nat.min_eq_right (by show p.length ≤ 4096 - b.buf.length; omega)
  unfold Writer.Write
  rw [hl]
  simp [herr, hm]

/-- An `Append` whose frame fits the buffer with what is there stays in the buffer: it
succeeds whatever the file. -/
theorem store.Append_buffered (s : store) (p : List Nat) (herr : s.buf.err = none)
    (hfit : s.buf.buf.length + 8 + p.length ≤ 4096) :
    s.Append p = (Res.ok (8 + p.length, s.size),
      { File := s.File, buf := { buf := s.buf.buf ++ PutUint64 p.length ++ p, err := none },
        size := toUint64 (s.size + (8 + p.length)) }) := by
  have hpl : toUint64 p.length = p.length := by simp only [toUint64]; omega
  have hw1 := Writer.Write_buffered s.buf s.File (PutUint64 p.length) herr
    (by rw [PutUint64_length]; omega)
  have hw2 := Writer.Write_buffered { buf := s.buf.buf ++ PutUint64 p.length, err := none }
    s.File p rfl (by simp only [List.length_append, PutUint64_length]; omega)
  have hw : toUint64 (p.length + lenWidth) = 8 + p.length := by
    simp only [toUint64, lenWidth]; omega
  unfold store.Append
  rw [hpl, hw1]
  dsimp only
  rw [hw2]
  simp only [hw]

/-- C7, as the code has it. Concrete store scenario: the payload
`"this is a record"` has 16 bytes, and appending it three times to an empty store,
each `store.Append` returns `(24, pos)` with `pos` equal to 0, 24 and 48
respectively. -/
theorem store_append_three (limit : Nat) :
    "this is a record".toList.map Char.toNat = write ∧
    ((newStore (File.empty limit)).Append write).1 = Res.ok (24, 0) ∧
    (((newStore (File.empty limit)).Append write).2.Append write).1 = Res.ok (24, 24) ∧
    ((((newStore (File.empty limit)).Append write).2.Append write).2.Append write).1 =
      Res.ok (24, 48) := by
  have e1 := store.Append_buffered (newStore (File.empty limit)) write rfl
    (by simp [newStore, write])
  have e2 := store.Append_buffered ((newStore (File.empty limit)).Append write).2 write
    (by rw [e1]) (by rw [e1]; simp [newStore, write, PutUint64_length])
  have e3 := store.Append_buffered
    (((newStore (File.empty limit)).Append write).2.Append write).2 write
    (by rw [e2]) (by rw [e2, e1]; simp [newStore, write, PutUint64_length])
  refine ⟨by decide, ?_, ?_, ?_⟩
  · rw [e1]; rfl
  · rw [e2, e1]; rfl
  · rw [e3, e2, e1]; rfl

/-- C7 as stated fails: the payload has 16 bytes, not 17, and the first `Append` to an
empty store returns `(24, 0)`, the second `(24, 24)`, the third `(24, 48)`, not
`(25, 0)`, `(25, 25)` and `(25, 50)`. -/
theorem store_append_three_counterexample :
    write.length = 16 ∧
    ((newStore (File.empty (2 ^ 63 - 1))).Append write).1 ≠ Res.ok (25, 0) ∧
    (((newStore (File.empty (2 ^ 63 - 1))).Append write).2.Append write).1 ≠ Res.ok (25, 25) ∧
    ((((newStore (File.empty (2 ^ 63 - 1))).Append write).2.Append write).2.Append write).1 ≠
      Res.ok (25, 50) := by
  decide

/-! ## Layout, frame and bounds of the index -/

theorem MMap.put_some {m m1 : MMap} {lo hi : Nat} {bs : List Nat}
    (h : m.put lo hi bs = some m1) : lo ≤ hi ∧ hi ≤ m.len ∧ bs.length ≤ hi - lo := by
  unfold MMap.put at h
  split at h
  · assumption
  · cases h

/-- A `Write` that succeeds had room, without wrap-around. -/
theorem index.Write_ok_room (i : index) (off pos : Nat) (h : (i.Write off pos).1 = Res.ok ()) :
    i.size + 12 ≤ i.mmap.len ∧ i.size + 12 < 2 ^ 64 := by
  unfold index.Write at h
  split at h
  · cases h
  · split at h
    · cases h
    · rename_i m1 h1
      split at h
      · cases h
      · rename_i m2 h2
        have a1 := MMap.put_some h1
        have a2 := MMap.put_some h2
        have hl := MMap.put_len h1
        have l4 : (PutUint32 off).length = 4 := rfl
        have l8 : (PutUint64 pos).length = 8 := rfl
        rw [l4] at a1
        rw [l8, hl] at a2
        simp only [toUint64, entWidth, offWidth, posWidth] at a1 a2
        have m1 := Nat.mod_le (i.size + 4) (2 ^ 64)
        have m2 := Nat.mod_le (i.size + (4 + 8)) (2 ^ 64)
        have m3 : (i.size + (4 + 8)) % 2 ^ 64 < 2 ^ 64 := Nat.mod_lt _ (by norm_num)
        omega

theorem index.Write_byte_above (i : index) (off pos a : Nat)
    (h : i.size + 12 ≤ i.mmap.len) (hno : i.size + 12 < 2 ^ 64) (ha : i.size + 12 ≤ a) :
    (i.Write off pos).2.mmap.byte a = i.mmap.byte a := by
  rw [index.Write_room i off pos h hno]
  show (if _ then _ else if _ then _ else _) = _
  rw [if_neg (by omega), if_neg (by omega)]

theorem int64ToUint32_natCast_mod (k : Nat) : int64ToUint32 (k : Int) = k % 2 ^ 32 := by
  unfold int64ToUint32
  omega

/-- C17. Index Write frame: for every index state, a successful `index.Write(off, pos)`
at size `s` leaves every byte of the mapped region outside `[s, s+12)` as it was, so
for every entry index `k < s / 12` the result of `index.Read(k)` is the same before
and after the `Write`; and `index.Read` leaves the index, `size` and every mapped
byte, as it was. -/
theorem index_Write_frame (i : index) (off pos : Nat) (h : (i.Write off pos).1 = Res.ok ()) :
    (∀ a, a < i.size ∨ i.size + 12 ≤ a → (i.Write off pos).2.mmap.byte a = i.mmap.byte a) ∧
    (∀ k : Nat, k < i.size / 12 → (i.Write off pos).2.Read (k : Int) = i.Read (k : Int)) ∧
    (∀ in_ : Int, i.run [IndexOp.Read in_] = i) := by
  obtain ⟨hroom, hno⟩ := index.Write_ok_room i off pos h
  refine ⟨?_, ?_, ?_⟩
  · intro a ha
    rcases ha with ha | ha
    · exact index.Write_byte_below i off pos a hroom hno ha
    · exact index.Write_byte_above i off pos a hroom hno ha
  · intro k hk
    have hne : ((k : Nat) : Int) ≠ -1 := by omega
    have he1 : (i.Write off pos).2.effective (k : Int) = k % 2 ^ 32 := by
      unfold index.effective
      rw [if_neg hne, int64ToUint32_natCast_mod]
    have he2 : i.effective (k : Int) = k % 2 ^ 32 := by
      unfold index.effective
      rw [if_neg hne, int64ToUint32_natCast_mod]
    have hmod : k % 2 ^ 32 ≤ k := Nat.mod_le _ _
    have hsz : (i.Write off pos).2.size = i.size + 12 := by
      rw [index.Write_room i off pos hroom hno]
    have hlen : (i.Write off pos).2.mmap.len = i.mmap.len := index.Write_len i off pos
    have hent := index.Write_entry_below i off pos (k % 2 ^ 32) hroom hno (by omega)
    have hR1 : (i.Write off pos).2.Read (k : Int) =
        if 12 * (k % 2 ^ 32) + 12 ≤ i.mmap.len then Res.ok (i.mmap.entry (k % 2 ^ 32))
        else Res.error Err.outOfRange := by
      rw [index.Read_eq, he1, hsz, hlen, hent, if_neg (by omega), if_neg (by omega)]
    have hR2 : i.Read (k : Int) =
        if 12 * (k % 2 ^ 32) + 12 ≤ i.mmap.len then Res.ok (i.mmap.entry (k % 2 ^ 32))
        else Res.error Err.outOfRange := by
      rw [index.Read_eq, he2, if_neg (by omega), if_neg (by omega)]
    rw [hR1, hR2]
  · intro in_
    unfold index.run
    split
    · rfl
    · rfl

theorem index_Write_frame_witness :
    (∀ a, a < testIndex.size ∨ testIndex.size + 12 ≤ a →
      (testIndex.Write 2 33).2.mmap.byte a = testIndex.mmap.byte a) ∧
    (∀ k : Nat, k < testIndex.size / 12 →
      (testIndex.Write 2 33).2.Read (k : Int) = testIndex.Read (k : Int)) ∧
    (∀ in_ : Int, testIndex.run [IndexOp.Read in_] = testIndex) :=
  index_Write_frame testIndex 2 33 (by decide)

/-- C18. Index bounds safety: for every index state with `size` within the mapped region
and every argument, neither `pos + 12` in `index.Read` nor `size + 12` in
`index.Write` wraps around; `Read` either returns end-of-file or slices the entry
inside `[0, size)` and returns it, and `Write` either returns end-of-file or writes
inside `[0, capacity)` and succeeds: the panic is not reached. Without `size` within
the region it is: on the index opened over a file of 24 bytes with capacity 12,
`Read(-1)` slices past the region. -/
theorem index_bounds_safe (i : index) (in_ : Int) (off pos : Nat)
    (hs : i.size ≤ i.mmap.len) (hl : i.mmap.len < 2 ^ 63) :
    (12 * i.effective in_ + 12 < 2 ^ 64 ∧ i.size + 12 < 2 ^ 64) ∧
    (i.Read in_ = Res.error Err.EOF ∨
      (12 * i.effective in_ + 12 ≤ i.size ∧ i.Read in_ = Res.ok (i.mmap.entry (i.effective in_)))) ∧
    ((i.Write off pos).1 = Res.error Err.EOF ∨
      (i.size + 12 ≤ i.mmap.len ∧ (i.Write off pos).1 = Res.ok ())) ∧
    i.Read in_ ≠ Res.error Err.outOfRange ∧
    (i.Write off pos).1 ≠ Res.error Err.outOfRange ∧
    (newIndex (List.replicate 24 0) 12).toOption.map (fun j => (j.size, j.mmap.len, j.Read (-1))) =
      some (24, 12, Res.error Err.outOfRange) := by
  have he := i.effective_lt in_
  have hread : i.Read in_ = Res.error Err.EOF ∨
      (12 * i.effective in_ + 12 ≤ i.size ∧
        i.Read in_ = Res.ok (i.mmap.entry (i.effective in_))) := by
    rw [index.Read_eq]
    by_cases h0 : i.size = 0
    · left; rw [if_pos h0]
    · by_cases h1 : i.size < 12 * i.effective in_ + 12
      · left; rw [if_neg h0, if_pos h1]
      · right
        refine ⟨by omega, ?_⟩
        rw [if_neg h0, if_neg h1, if_pos (by omega)]
  have hwrite : (i.Write off pos).1 = Res.error Err.EOF ∨
      (i.size + 12 ≤ i.mmap.len ∧ (i.Write off pos).1 = Res.ok ()) := by
    by_cases hroom : i.size + 12 ≤ i.mmap.len
    · right
      refine ⟨hroom, ?_⟩
      rw [index.Write_room i off pos hroom (by omega)]
    · left
      have e1 : toUint64 (i.size + entWidth) = i.size + 12 := by
        simp only [toUint64, entWidth, offWidth, posWidth]; omega
      unfold index.Write
      rw [e1, if_pos (by omega)]
  refine ⟨⟨by omega, by omega⟩, hread, hwrite, ?_, ?_, by decide⟩
  · rcases hread with h | ⟨_, h⟩ <;> rw [h] <;> intro hc <;> cases hc
  · rcases hwrite with h | ⟨_, h⟩ <;> rw [h] <;> intro hc <;> cases hc

theorem index_bounds_safe_witness :
    (12 * testIndex.effective (-1) + 12 < 2 ^ 64 ∧ testIndex.size + 12 < 2 ^ 64) ∧
    (testIndex.Read (-1) = Res.error Err.EOF ∨
      (12 * testIndex.effective (-1) + 12 ≤ testIndex.size ∧
        testIndex.Read (-1) = Res.ok (testIndex.mmap.entry (testIndex.effective (-1))))) ∧
    ((testIndex.Write 2 33).1 = Res.error Err.EOF ∨
      (testIndex.size + 12 ≤ testIndex.mmap.len ∧ (testIndex.Write 2 33).1 = Res.ok ())) ∧
    testIndex.Read (-1) ≠ Res.error Err.outOfRange ∧
    (testIndex.Write 2 33).1 ≠ Res.error Err.outOfRange ∧
    (newIndex (List.replicate 24 0) 12).toOption.map (fun j => (j.size, j.mmap.len, j.Read (-1))) =
      some (24, 12, Res.error Err.outOfRange) :=
  index_bounds_safe testIndex (-1) 2 33 (by decide) (by decide)

theorem List.map_range_getD (bs : List Nat) :
    (List.range bs.length).map (fun j => bs.getD j 0) = bs := by
  apply List.ext_getElem?
  intro n
  by_cases hn : n < bs.length
  · simp [List.getElem?_map, List.getElem?_range, hn, List.getD_eq_getElem?_getD]
  · have hge : bs.length ≤ n := Nat.le_of_not_lt hn
    rw [List.getElem?_eq_none (by simpa using hge), List.getElem?_eq_none hge]

/-- A slice of the mapped region whose bytes are those of `bs`. -/
theorem MMap.slice_of_bytes (m : MMap) (lo : Nat) (bs : List Nat)
    (hle : lo + bs.length ≤ m.len) (hb : ∀ j, j < bs.length → m.byte (lo + j) = bs.getD j 0) :
    m.slice lo (lo + bs.length) = some bs := by
  unfold MMap.slice
  rw [if_pos ⟨by omega, hle⟩, Nat.add_sub_cancel_left]
  congr 1
  conv => rhs; rw [← List.map_range_getD bs]
  apply List.map_congr_left
  intro j hj
  rw [List.mem_range] at hj
  exact hb j hj

theorem index.WriteAll_bytes (es1 : List (Nat × Nat)) :
    ∀ (i : index) (es : List (Nat × Nat)), i.size = 12 * es.length →
      (∀ k e, es[k]? = some e →
        (∀ j, j < 4 → i.mmap.byte (12 * k + j) = (PutUint32 e.1).getD j 0) ∧
        (∀ j, j < 8 → i.mmap.byte (12 * k + 4 + j) = (PutUint64 e.2).getD j 0)) →
      12 * (es.length + es1.length) ≤ i.mmap.len → i.mmap.len < 2 ^ 63 →
      (i.WriteAll es1).1 = Res.ok () ∧
      (i.WriteAll es1).2.size = 12 * (es.length + es1.length) ∧
      (i.WriteAll es1).2.mmap.len = i.mmap.len ∧
      (∀ k e, (es ++ es1)[k]? = some e →
        (∀ j, j < 4 → (i.WriteAll es1).2.mmap.byte (12 * k + j) = (PutUint32 e.1).getD j 0) ∧
        (∀ j, j < 8 → (i.WriteAll es1).2.mmap.byte (12 * k + 4 + j) =
          (PutUint64 e.2).getD j 0)) := by
  induction es1 with
  | nil =>
    intro i es hsz hb _ _
    refine ⟨rfl, by simpa [index.WriteAll] using hsz, rfl, ?_⟩
    simpa [index.WriteAll] using hb
  | cons e es1 ih =>
    intro i es hsz hb hroom hl
    have hlen : (e :: es1).length = es1.length + 1 := rfl
    have h : i.size + 12 ≤ i.mmap.len := by omega
    have hno : i.size + 12 < 2 ^ 64 := by omega
    have hw := index.Write_room i e.1 e.2 h hno
    have hl2 : (i.Write e.1 e.2).2.mmap.len = i.mmap.len := index.Write_len i e.1 e.2
    have hsz2 : (i.Write e.1 e.2).2.size = 12 * (es ++ [e]).length := by
      rw [hw]; simp [hsz]; omega
    have hb2 : ∀ k x, (es ++ [e])[k]? = some x →
        (∀ j, j < 4 → (i.Write e.1 e.2).2.mmap.byte (12 * k + j) = (PutUint32 x.1).getD j 0) ∧
        (∀ j, j < 8 → (i.Write e.1 e.2).2.mmap.byte (12 * k + 4 + j) =
          (PutUint64 x.2).getD j 0) := by
      intro k x hk
      by_cases hlt : k < es.length
      · rw [List.getElem?_append_left hlt] at hk
        obtain ⟨h4, h8⟩ := hb k x hk
        refine ⟨?_, ?_⟩
        · intro j hj
          rw [index.Write_byte_below i e.1 e.2 _ h hno (by omega)]
          exact h4 j hj
        · intro j hj
          rw [index.Write_byte_below i e.1 e.2 _ h hno (by omega)]
          exact h8 j hj
      · have hk2 : k = es.length := by
          have := (List.getElem?_eq_some_iff.1 hk).1
          simp at this
          omega
        subst hk2
        simp at hk
        subst hk
        refine ⟨?_, ?_⟩
        · intro j hj
          rw [← hsz]
          exact index.Write_byte_off i e.1 e.2 j h hno hj
        · intro j hj
          rw [← hsz]
          exact index.Write_byte_pos i e.1 e.2 j h hno hj
    have hstep : i.WriteAll (e :: es1) = (i.Write e.1 e.2).2.WriteAll es1 := by
      show (match i.Write e.1 e.2 with
        | (Res.ok _, i1) => i1.WriteAll es1
        | (Res.error err, i1) => (Res.error err, i1)) = _
      rw [hw]
    obtain ⟨r1, r2, r3, r4⟩ := ih (i.Write e.1 e.2).2 (es ++ [e]) hsz2 hb2
      (by rw [hl2]; simp; omega) (by rw [hl2]; exact hl)
    rw [hstep]
    refine ⟨r1, ?_, by rw [r3, hl2], ?_⟩
    · rw [r2]; simp; omega
    · simpa using r4

/-- C14. Index on-disk entry layout: for every index state with room for one more
entry, `index.Write(off, pos)` at size `s` succeeds, bytes `[s, s+4)` of the mapped
region are then the big-endian encoding of `off`, bytes `[s+4, s+12)` the big-endian
encoding of `pos`, and `size` is `s + 12`; so after `n` writes from size 0, `size` is
`n * 12` and entry `k` occupies bytes `[12k, 12k+12)`, the record number in the first
four and the position in the last eight. -/
theorem index_entry_layout :
    (∀ (i : index) (off pos : Nat), i.size + 12 ≤ i.mmap.len → i.mmap.len < 2 ^ 63 →
      (i.Write off pos).1 = Res.ok () ∧ (i.Write off pos).2.size = i.size + 12 ∧
      (i.Write off pos).2.mmap.slice i.size (i.size + 4) = some (PutUint32 off) ∧
      (i.Write off pos).2.mmap.slice (i.size + 4) (i.size + 12) = some (PutUint64 pos) ∧
      Uint32 (PutUint32 off) = off % 2 ^ 32 ∧ Uint64 (PutUint64 pos) = pos % 2 ^ 64) ∧
    (∀ (i : index) (es : List (Nat × Nat)), i.size = 0 → 12 * es.length ≤ i.mmap.len →
      i.mmap.len < 2 ^ 63 →
      (i.WriteAll es).1 = Res.ok () ∧ (i.WriteAll es).2.size = es.length * 12 ∧
      ∀ k e, es[k]? = some e →
        (i.WriteAll es).2.mmap.slice (12 * k) (12 * k + 4) = some (PutUint32 e.1) ∧
        (i.WriteAll es).2.mmap.slice (12 * k + 4) (12 * k + 12) = some (PutUint64 e.2)) := by
  refine ⟨?_, ?_⟩
  · intro i off pos hroom hl
    have hno : i.size + 12 < 2 ^ 64 := by omega
    have hw := index.Write_room i off pos hroom hno
    have hlen : (i.Write off pos).2.mmap.len = i.mmap.len := index.Write_len i off pos
    refine ⟨by rw [hw], by rw [hw], ?_, ?_, Uint32_PutUint32 off, Uint64_PutUint64 pos⟩
    · exact MMap.slice_of_bytes _ i.size (PutUint32 off) (by rw [hlen]; show i.size + 4 ≤ _; omega)
        (fun j hj => index.Write_byte_off i off pos j hroom hno hj)
    · exact MMap.slice_of_bytes _ (i.size + 4) (PutUint64 pos)
        (by rw [hlen]; show i.size + 4 + 8 ≤ _; omega)
        (fun j hj => index.Write_byte_pos i off pos j hroom hno hj)
  · intro i es h0 hroom hl
    obtain ⟨r1, r2, r3, r4⟩ := index.WriteAll_bytes es i [] (by simp [h0]) (by simp)
      (by simpa using hroom) hl
    refine ⟨r1, by rw [r2]; simp; omega, ?_⟩
    intro k e hk
    have hklt : k < es.length := (List.getElem?_eq_some_iff.1 hk).1
    obtain ⟨h4, h8⟩ := r4 k e (by simpa using hk)
    refine ⟨?_, ?_⟩
    · exact MMap.slice_of_bytes _ (12 * k) (PutUint32 e.1)
        (by rw [r3]; show 12 * k + 4 ≤ _; omega) h4
    · exact MMap.slice_of_bytes _ (12 * k + 4) (PutUint64 e.2)
        (by rw [r3]; show 12 * k + 4 + 8 ≤ _; omega) h8

theorem index_entry_layout_witness :
    ((emptyIndex.Write 0 2).1 = Res.ok () ∧ (emptyIndex.Write 0 2).2.size = emptyIndex.size + 12 ∧
      (emptyIndex.Write 0 2).2.mmap.slice emptyIndex.size (emptyIndex.size + 4) =
        some (PutUint32 0) ∧
      (emptyIndex.Write 0 2).2.mmap.slice (emptyIndex.size + 4) (emptyIndex.size + 12) =
        some (PutUint64 2) ∧
      Uint32 (PutUint32 0) = 0 % 2 ^ 32 ∧ Uint64 (PutUint64 2) = 2 % 2 ^ 64) ∧
    ((emptyIndex.WriteAll [(0, 2), (1, 10)]).2.size = [(0, 2), (1, 10)].length * 12 ∧
      (emptyIndex.WriteAll [(0, 2), (1, 10)]).2.mmap.slice (12 * 1 + 4) (12 * 1 + 12) =
        some (PutUint64 10)) :=
  ⟨index_entry_layout.1 emptyIndex 0 2 (by decide) (by decide),
   (index_entry_layout.2 emptyIndex [(0, 2), (1, 10)] rfl (by decide) (by decide)).2.1,
   ((index_entry_layout.2 emptyIndex [(0, 2), (1, 10)] rfl (by decide) (by decide)).2.2 1 (1, 10)
      rfl).2⟩

/-! ## The frames in the file -/

/-- Under the conditions of `store.run_fit`, the bytes written are those there were
followed by the frames of the appends recorded, in order. -/
theorem store.run_frames (ops : List Op) :
    ∀ s : store, s.Good → s.content.length + Op.need ops ≤ min s.File.limit (2 ^ 63 - 1) →
      (s.run ops).2.content = s.content ++ frames ((s.run ops).1.map Prod.snd) := by
  induction ops with
  | nil => intro s _ _; simp [store.run, frames]
  | cons op ops ih =>
    intro s hg hfit
    cases op with
    | Append p =>
      have hneed : Op.need (Op.Append p :: ops) = 8 + p.length + Op.need ops := rfl
      obtain ⟨s1, hA, hg1, hc1, hl1⟩ := store.Append_fit s p hg (by omega)
      have hlen1 : s1.content.length = s.content.length + 8 + p.length := by
        rw [hc1]; simp only [List.length_append, PutUint64_length]; omega
      rw [store.run_Append s p ops _ s1 hA]
      dsimp only
      rw [ih s1 hg1 (by rw [hl1]; omega), hc1]
      simp only [List.map_cons, frames, List.append_assoc]
    | Read pos =>
      have hneed : Op.need (Op.Read pos :: ops) = Op.need ops := rfl
      have hst := store.Read_state s pos hg (by omega)
      have hg1 := store.Good_flushed s hg
      have hc1 := store.content_flushed s
      rw [store.run_Read]
      by_cases hp : (s.Read pos).1 = Res.error Err.outOfRange
      · rw [if_pos hp, hst, hc1]
        simp [frames]
      · rw [if_neg hp, hst, ih _ hg1 (by rw [hc1]; show _ ≤ min s.File.limit _; omega), hc1]
    | ReadAt n off =>
      have hneed : Op.need (Op.ReadAt n off :: ops) = Op.need ops := rfl
      have hst := store.ReadAt_state s n off hg (by omega)
      have hg1 := store.Good_flushed s hg
      have hc1 := store.content_flushed s
      rw [store.run_ReadAt, hst, ih _ hg1 (by rw [hc1]; show _ ≤ min s.File.limit _; omega), hc1]

/-- A `ReadAt` over the length field of a frame and then one over its payload, on a
store in working order over a file with room. -/
theorem store.ReadAt_frame (s : store) (pos : Nat) (p : List Nat) (hg : s.Good)
    (hfit : s.content.length ≤ min s.File.limit (2 ^ 63 - 1))
    (hf : Framed s.content pos p) :
    (s.ReadAt lenWidth (pos : Int)).1 = (PutUint64 p.length, none) ∧
    ((s.ReadAt lenWidth (pos : Int)).2.ReadAt p.length ((pos + 8 : Nat) : Int)).1 = (p, none) := by
  obtain ⟨a, b, hc, ha⟩ := hf
  have hst := store.ReadAt_state s lenWidth (pos : Int) hg hfit
  have hg1 := store.Good_flushed s hg
  have hc1 := store.content_flushed s
  have hread : ∀ (t : store) (x pre post : List Nat), t.Good →
      t.content.length ≤ min t.File.limit (2 ^ 63 - 1) → t.content = pre ++ x ++ post →
      (t.ReadAt x.length (pre.length : Int)).1 = (x, none) := by
    intro t x pre post htg htfit htc
    have hfl := store.flush_to_file t htg htfit
    unfold store.ReadAt
    rw [hfl]
    exact File.ReadAt_mid _ pre x post htc
  refine ⟨?_, ?_⟩
  · have := hread s (PutUint64 p.length) a (p ++ b) hg hfit
      (by rw [hc]; simp only [List.append_assoc])
    rw [PutUint64_length, ha] at this
    exact this
  · rw [hst]
    have := hread _ p (a ++ PutUint64 p.length) b hg1
      (by rw [hc1]; exact hfit) (by rw [hc1, hc]; simp only [List.append_assoc])
    simp only [List.length_append, PutUint64_length, ha] at this
    exact this

/-- C13. Store on-disk frame format via `ReadAt`: for every sequence of calls on a store
opened over an empty file, on a device with room for the frames appended, and every
payload `p` appended at start position `pos`, `store.ReadAt` with an 8-byte buffer at
offset `pos` returns 8 bytes with no error, which decode big-endian to `len(p)`, and
`store.ReadAt` with a `len(p)`-byte buffer at offset `pos + 8` then returns `len(p)`
bytes, exactly `p`; and the file is, once flushed by a `ReadAt`, the concatenation of
the frames of the payloads appended, with nothing between them. -/
theorem store_frame_format (limit : Nat) (ops : List Op)
    (hroom : Op.need ops ≤ min limit (2 ^ 63 - 1)) :
    (∀ e ∈ ((newStore (File.empty limit)).run ops).1,
      (((newStore (File.empty limit)).run ops).2.ReadAt lenWidth (e.1 : Int)).1 =
        (PutUint64 e.2.length, none) ∧
      (PutUint64 e.2.length).length = 8 ∧ Uint64 (PutUint64 e.2.length) = e.2.length ∧
      ((((newStore (File.empty limit)).run ops).2.ReadAt lenWidth (e.1 : Int)).2.ReadAt
        e.2.length ((e.1 + 8 : Nat) : Int)).1 = (e.2, none)) ∧
    (∀ (n : Nat) (off : Int),
      (((newStore (File.empty limit)).run ops).2.ReadAt n off).2.File.data =
        frames (((newStore (File.empty limit)).run ops).1.map Prod.snd)) := by
  have hg := newStore_empty_Good limit
  have hc0 : (newStore (File.empty limit)).content = [] := rfl
  have hl0 : (newStore (File.empty limit)).File.limit = limit := rfl
  have hfit : (newStore (File.empty limit)).content.length + Op.need ops ≤
      min (newStore (File.empty limit)).File.limit (2 ^ 63 - 1) := by
    rw [hc0, hl0]; simpa using hroom
  obtain ⟨hG, hL, _, hN, hE⟩ := store.run_fit ops _ hg hfit
  have hF := store.run_frames ops _ hg hfit
  rw [hc0, List.nil_append] at hF
  rw [hc0] at hN
  have hfit2 : ((newStore (File.empty limit)).run ops).2.content.length ≤
      min ((newStore (File.empty limit)).run ops).2.File.limit (2 ^ 63 - 1) := by
    rw [hL, hl0]; simp only [List.length_nil, Nat.zero_add] at hN; omega
  refine ⟨?_, ?_⟩
  · intro e he
    obtain ⟨r1, r2⟩ := store.ReadAt_frame _ e.1 e.2 hG hfit2 (hE e he)
    refine ⟨r1, rfl, ?_, r2⟩
    rw [Uint64_PutUint64]
    obtain ⟨a, b, hc, _⟩ := hE e he
    have hlen := congrArg List.length hc
    simp only [List.length_append, PutUint64_length] at hlen
    exact Nat.mod_eq_of_lt (by omega)
  · intro n off
    rw [store.ReadAt_state _ n off hG hfit2]
    exact hF

theorem store_frame_format_witness :
    (((newStore (File.empty (2 ^ 40))).run [Op.Append write, Op.Append [], Op.Append write]).2.ReadAt
        lenWidth ((24 : Nat) : Int)).1 = (PutUint64 0, none) ∧
    (((newStore (File.empty (2 ^ 40))).run [Op.Append write, Op.Append [], Op.Append write]).2.ReadAt
        0 0).2.File.data =
      frames (((newStore (File.empty (2 ^ 40))).run
        [Op.Append write, Op.Append [], Op.Append write]).1.map Prod.snd) :=
  have h := store_frame_format (2 ^ 40) [Op.Append write, Op.Append [], Op.Append write]
    (by decide)
  ⟨(h.1 (24, []) (by decide)).1, h.2 0 0⟩

/-! ## The size of the store when writes fail -/

theorem File.Write_at_end (f : File) (p : List Nat) (hoff : f.off = f.data.length) :
    (f.Write p).2.2.data.length = f.data.length + (f.Write p).1 ∧
    (f.Write p).2.2.off = (f.Write p).2.2.data.length ∧
    (f.Write p).2.2.limit = f.limit ∧
    (f.data.length ≤ 2 ^ 63 - 1 → (f.Write p).2.2.data.length ≤ 2 ^ 63 - 1) := by
  unfold File.Write
  dsimp only
  obtain ⟨k, hk⟩ : ∃ k, k = min p.length f.room := ⟨_, rfl⟩
  rw [← hk]
  have hkp : k ≤ p.length := by rw [hk]; exact Nat.min_le_left _ _
  have hkr : k ≤ f.room := by rw [hk]; exact Nat.min_le_right _ _
  have hroom : f.room = min f.limit (2 ^ 63 - 1) - f.off := rfl
  have hM : min f.limit (2 ^ 63 - 1) ≤ 2 ^ 63 - 1 := Nat.min_le_right _ _
  by_cases h0 : k = 0
  · rw [if_pos h0, h0]
    exact ⟨rfl, hoff, rfl, fun h => h⟩
  · rw [if_neg h0]
    have hlen : (f.data.take f.off ++ List.replicate (f.off - f.data.length) 0 ++
        p.take k ++ f.data.drop (f.off + k)).length = f.data.length + k := by
      simp only [List.length_append, List.length_take, List.length_replicate, List.length_drop,
        hoff]
      omega
    refine ⟨hlen, ?_, rfl, ?_⟩
    · show f.off + k = _
      rw [hlen, hoff]
    · intro hb
      show (f.data.take f.off ++ List.replicate (f.off - f.data.length) 0 ++
        p.take k ++ f.data.drop (f.off + k)).length ≤ _
      rw [hlen]
      omega

/-- A `Flush`, failing or not, moves bytes from the buffer to the file and loses
none; the error it returns is the one the writer carries afterwards, and without
one the buffer is empty. -/
theorem Writer.Flush_total (b : Writer) (f : File) (hoff : f.off = f.data.length) :
    (b.Flush f).2.2.data.length + (b.Flush f).2.1.buf.length = f.data.length + b.buf.length ∧
    (b.Flush f).2.2.off = (b.Flush f).2.2.data.length ∧
    (b.Flush f).2.2.limit = f.limit ∧
    (f.data.length ≤ 2 ^ 63 - 1 → (b.Flush f).2.2.data.length ≤ 2 ^ 63 - 1) ∧
    (b.Flush f).2.1.buf.length ≤ b.buf.length ∧
    (b.Flush f).2.1.err = (b.Flush f).1 ∧
    ((b.Flush f).1 = none → (b.Flush f).2.1.buf = [] ∧ b.err = none) := by
  obtain ⟨w1, w2, w3, w4⟩ := File.Write_at_end f b.buf hoff
  have hk := (File.Write_short f b.buf).1
  unfold Writer.Flush
  cases herr : b.err with
  | some e =>
    dsimp only
    exact ⟨rfl, hoff, rfl, fun h => h, Nat.le_refl _, herr, fun h => by cases h⟩
  | none =>
    dsimp only
    by_cases hb : b.buf.length = 0
    · rw [if_pos hb]
      exact ⟨rfl, hoff, rfl, fun h => h, Nat.le_refl _, herr,
        fun _ => ⟨List.length_eq_zero.1 hb, rfl⟩⟩
    · rw [if_neg hb]
      split
      · rename_i e he
        refine ⟨?_, w2, w3, w4, ?_, rfl, (fun h => by cases h)⟩
        · show (f.Write b.buf).2.2.data.length + (b.buf.drop (f.Write b.buf).1).length = _
          rw [w1, List.length_drop]; omega
        · show (b.buf.drop (f.Write b.buf).1).length ≤ _
          rw [List.length_drop]; omega
      · rename_i he
        have hnone : (f.Write b.buf).2.1 = none := by
          by_cases hc : (f.Write b.buf).1 < b.buf.length ∧ (f.Write b.buf).2.1 = none
          · rw [if_pos hc] at he; cases he
          · rw [if_neg hc] at he; exact he
        have hall := (File.Write_short f b.buf).2 hnone
        refine ⟨?_, w2, w3, w4, by simp, rfl, fun _ => ⟨rfl, rfl⟩⟩
        show (f.Write b.buf).2.2.data.length + 0 = _
        rw [w1, hall]; omega

/-- The loop of `Write`, failing or not, loses no byte: what is in the file, in the
buffer and left of `p` adds up to what was there. -/
theorem Writer.writeLoop_total (fuel : Nat) :
    ∀ (b : Writer) (f : File) (p : List Nat) (nn : Nat), f.off = f.data.length →
      b.buf.length ≤ 4096 →
      (Writer.writeLoop fuel b f p nn).2.2.2.data.length +
        (Writer.writeLoop fuel b f p nn).2.2.1.buf.length +
        (Writer.writeLoop fuel b f p nn).2.1.length = f.data.length + b.buf.length + p.length ∧
      (Writer.writeLoop fuel b f p nn).2.1.length ≤ p.length ∧
      (Writer.writeLoop fuel b f p nn).2.2.2.off =
        (Writer.writeLoop fuel b f p nn).2.2.2.data.length ∧
      (Writer.writeLoop fuel b f p nn).2.2.2.limit = f.limit ∧
      (f.data.length ≤ 2 ^ 63 - 1 →
        (Writer.writeLoop fuel b f p nn).2.2.2.data.length ≤ 2 ^ 63 - 1) ∧
      (Writer.writeLoop fuel b f p nn).2.2.1.buf.length ≤ 4096 ∧
      ((Writer.writeLoop fuel b f p nn).2.2.1.err = none → b.err = none) := by
  induction fuel with
  | zero =>
    intro b f p nn hoff hlen
    exact ⟨rfl, Nat.le_refl _, hoff, rfl, fun h => h, hlen, fun h => h⟩
  | succ fuel ih =>
    intro b f p nn hoff hlen
    by_cases hc : b.Available < p.length ∧ b.err = none
    · by_cases h0 : b.Buffered = 0
      · rw [Writer.writeLoop_direct fuel b f p nn hc h0]
        obtain ⟨w1, w2, w3, w4⟩ := File.Write_at_end f p hoff
        have hk := (File.Write_short f p).1
        obtain ⟨r1, r0, r2, r3, r4, r5, _⟩ := ih { buf := b.buf, err := (f.Write p).2.1 }
          (f.Write p).2.2 (p.drop (f.Write p).1) (nn + (f.Write p).1) w2 hlen
        rw [List.length_drop] at r0 r1
        refine ⟨?_, by omega, r2, by rw [r3, w3], fun h => r4 (w4 h), r5, fun _ => hc.2⟩
        rw [r1, w1]
        show f.data.length + (f.Write p).1 + b.buf.length + (p.length - (f.Write p).1) = _
        omega
      · rw [Writer.writeLoop_fill fuel b f p nn hc h0]
        have hav : b.Available = 4096 - b.buf.length := rfl
        obtain ⟨n, hn⟩ : ∃ n, n = min b.Available p.length := ⟨_, rfl⟩
        rw [← hn]
        have hn1 : n ≤ p.length := by rw [hn]; exact Nat.min_le_right _ _
        have hn2 : n ≤ b.Available := by rw [hn]; exact Nat.min_le_left _ _
        obtain ⟨b1, hb1⟩ : ∃ b1 : Writer, b1 = { buf := b.buf ++ p.take n, err := b.err } :=
          ⟨_, rfl⟩
        rw [← hb1]
        have hbl : b1.buf.length = b.buf.length + n := by
          rw [hb1]
          show (b.buf ++ p.take n).length = _
          rw [List.length_append, List.length_take]; omega
        obtain ⟨g1, g2, g3, g4, g5, _, _⟩ := Writer.Flush_total b1 f hoff
        obtain ⟨r1, r0, r2, r3, r4, r5, _⟩ := ih (b1.Flush f).2.1 (b1.Flush f).2.2 (p.drop n)
          (nn + n) g2 (by omega)
        rw [List.length_drop] at r0 r1
        refine ⟨?_, by omega, r2, by rw [r3, g3], fun h => r4 (g4 h), r5, fun _ => hc.2⟩
        rw [r1]
        omega
    · rw [Writer.writeLoop_done fuel b f p nn hc]
      exact ⟨rfl, Nat.le_refl _, hoff, rfl, fun h => h, hlen, fun h => h⟩

/-- A `Write`, failing or not: the bytes in the file and in the buffer only grow, by all
of `p` when it returns no error, which needs a writer without error; the error it
returns is the one the writer carries afterwards. -/
theorem Writer.Write_total (b : Writer) (f : File) (p : List Nat) (hoff : f.off = f.data.length)
    (hlen : b.buf.length ≤ 4096) :
    f.data.length + b.buf.length ≤
      (b.Write f p).2.2.2.data.length + (b.Write f p).2.2.1.buf.length ∧
    ((b.Write f p).2.1 = none →
      (b.Write f p).2.2.2.data.length + (b.Write f p).2.2.1.buf.length =
        f.data.length + b.buf.length + p.length ∧ b.err = none) ∧
    (b.Write f p).2.2.2.off = (b.Write f p).2.2.2.data.length ∧
    (b.Write f p).2.2.2.limit = f.limit ∧
    (f.data.length ≤ 2 ^ 63 - 1 → (b.Write f p).2.2.2.data.length ≤ 2 ^ 63 - 1) ∧
    (b.Write f p).2.2.1.buf.length ≤ 4096 ∧
    (b.Write f p).2.2.1.err = (b.Write f p).2.1 := by
  obtain ⟨r1, r0, r2, r3, r4, r5, r6⟩ :=
    Writer.writeLoop_total (p.length + 2) b f p 0 hoff hlen
  have hx := Writer.writeLoop_exit b f p 0
  unfold Writer.Write
  dsimp only
  cases herr : (Writer.writeLoop (p.length + 2) b f p 0).2.2.1.err with
  | some e =>
    dsimp only
    refine ⟨by omega, (fun h => by cases h), r2, r3, r4, r5, herr⟩
  | none =>
    dsimp only
    obtain ⟨x1, _⟩ := hx herr
    have hm : min (Writer.writeLoop (p.length + 2) b f p 0).2.2.1.Available
        (Writer.writeLoop (p.length + 2) b f p 0).2.1.length =
        (Writer.writeLoop (p.length + 2) b f p 0).2.1.length := Nat.min_eq_right x1
    have hav : (Writer.writeLoop (p.length + 2) b f p 0).2.2.1.Available =
        4096 - (Writer.writeLoop (p.length + 2) b f p 0).2.2.1.buf.length := rfl
    rw [hm, List.take_length, List.length_append]
    refine ⟨by omega, fun _ => ⟨by omega, r6 herr⟩, r2, r3, r4, by omega, rfl⟩

theorem store.Append_Counted (s : store) (p : List Nat) (hc : s.Counted) :
    (s.Append p).2.Counted ∧
    (∀ r, (s.Append p).1 = Res.ok r → (s.Append p).2.buf.err = none) := by
  obtain ⟨hoff, hlen, hdata, hle, heq⟩ := hc
  obtain ⟨R1, hR1⟩ : ∃ R1, R1 = s.buf.Write s.File (PutUint64 (toUint64 p.length)) := ⟨_, rfl⟩
  obtain ⟨t1, t2, t3, t4, t5, t6, t7⟩ :=
    Writer.Write_total s.buf s.File (PutUint64 (toUint64 p.length)) hoff hlen
  rw [← hR1] at t1 t2 t3 t4 t5 t6 t7
  obtain ⟨R2, hR2⟩ : ∃ R2, R2 = R1.2.2.1.Write R1.2.2.2 p := ⟨_, rfl⟩
  obtain ⟨u1, u2, u3, u4, u5, u6, u7⟩ := Writer.Write_total R1.2.2.1 R1.2.2.2 p t3 t6
  have ucount := Writer.Write_count R1.2.2.1 R1.2.2.2 p
  rw [← hR2] at u1 u2 u3 u4 u5 u6 u7 ucount
  have hA : s.Append p =
      match R1.2.1 with
      | some e => (Res.error e, { File := R1.2.2.2, buf := R1.2.2.1, size := s.size })
      | none =>
        match R2.2.1 with
        | some e => (Res.error e, { File := R2.2.2.2, buf := R2.2.2.1, size := s.size })
        | none =>
          (Res.ok (toUint64 (R2.1 + lenWidth), s.size),
           { File := R2.2.2.2, buf := R2.2.2.1,
             size := toUint64 (s.size + toUint64 (R2.1 + lenWidth)) }) := by
    rw [hR2, hR1]; rfl
  rw [hA]
  have h8 : (PutUint64 (toUint64 p.length)).length = 8 := rfl
  rw [h8] at t2
  cases h1 : R1.2.1 with
  | some e =>
    dsimp only
    rw [h1] at t7
    refine ⟨⟨t3, t6, t5 hdata, ?_, ?_⟩, fun r h => by cases h⟩
    · show s.size ≤ R1.2.2.2.data.length + R1.2.2.1.buf.length
      omega
    · intro h
      have h' : R1.2.2.1.err = none := h
      rw [t7] at h'; cases h'
  | none =>
    dsimp only
    obtain ⟨t2a, t2b⟩ := t2 h1
    have hs := heq t2b
    cases h2 : R2.2.1 with
    | some e =>
      dsimp only
      rw [h2] at u7
      refine ⟨⟨u3, u6, u5 (t5 hdata), ?_, ?_⟩, fun r h => by cases h⟩
      · show s.size ≤ R2.2.2.2.data.length + R2.2.2.1.buf.length
        omega
      · intro h
        have h' : R2.2.2.1.err = none := h
        rw [u7] at h'; cases h'
    | none =>
      dsimp only
      obtain ⟨u2a, _⟩ := u2 h2
      have hcount := ucount h2
      have hd2 := u5 (t5 hdata)
      rw [h2] at u7
      refine ⟨⟨u3, u6, hd2, ?_, ?_⟩, fun _ _ => u7⟩
      · show toUint64 (s.size + toUint64 (R2.1 + lenWidth)) ≤
          R2.2.2.2.data.length + R2.2.2.1.buf.length
        simp only [toUint64, lenWidth, hcount]
        omega
      · intro _
        show toUint64 (s.size + toUint64 (R2.1 + lenWidth)) =
          R2.2.2.2.data.length + R2.2.2.1.buf.length
        simp only [toUint64, lenWidth, hcount]
        omega

theorem store.flushed_Counted (s : store) (hc : s.Counted) :
    store.Counted { File := (s.buf.Flush s.File).2.2, buf := (s.buf.Flush s.File).2.1,
                    size := s.size } := by
  obtain ⟨hoff, hlen, hdata, hle, heq⟩ := hc
  obtain ⟨g1, g2, g3, g4, g5, g6, g7⟩ := Writer.Flush_total s.buf s.File hoff
  refine ⟨g2, ?_, g4 hdata, ?_, ?_⟩
  · show (s.buf.Flush s.File).2.1.buf.length ≤ defaultBufSize
    exact Nat.le_trans g5 hlen
  · show s.size ≤ (s.buf.Flush s.File).2.2.data.length + (s.buf.Flush s.File).2.1.buf.length
    omega
  · intro h
    show s.size = (s.buf.Flush s.File).2.2.data.length + (s.buf.Flush s.File).2.1.buf.length
    have h2 : (s.buf.Flush s.File).1 = none := by rw [← g6]; exact h
    have := heq (g7 h2).2
    omega

theorem store.Read_snd (s : store) (pos : Nat) :
    (s.Read pos).2 = { File := (s.buf.Flush s.File).2.2, buf := (s.buf.Flush s.File).2.1,
                       size := s.size } := by
  unfold store.Read
  dsimp only
  repeat' split
  all_goals rfl

theorem store.ReadAt_snd (s : store) (n : Nat) (off : Int) :
    (s.ReadAt n off).2 = { File := (s.buf.Flush s.File).2.2, buf := (s.buf.Flush s.File).2.1,
                           size := s.size } := by
  unfold store.ReadAt
  dsimp only
  split <;> rfl

theorem store.run_Counted (ops : List Op) : ∀ s : store, s.Counted → (s.run ops).2.Counted := by
  induction ops with
  | nil => intro s hc; exact hc
  | cons op ops ih =>
    intro s hc
    cases op with
    | Append p =>
      have hA := (store.Append_Counted s p hc).1
      rcases hr : s.Append p with ⟨r, s1⟩
      rw [hr] at hA
      cases r with
      | ok a =>
        rw [store.run_Append s p ops a s1 hr]
        exact ih s1 hA
      | error e =>
        rw [store.run_Append_error s p ops e s1 hr]
        exact ih s1 hA
    | Read pos =>
      have hR := store.flushed_Counted s hc
      rw [← store.Read_snd s pos] at hR
      rw [store.run_Read]
      split
      · exact hR
      · exact ih _ hR
    | ReadAt n off =>
      have hR := store.flushed_Counted s hc
      rw [← store.ReadAt_snd s n off] at hR
      rw [store.run_ReadAt]
      exact ih _ hR

theorem newStore_empty_Counted (limit : Nat) : (newStore (File.empty limit)).Counted :=
  ⟨rfl, by simp [newStore], by simp [newStore, File.empty], by simp [newStore, File.empty, toUint64],
   fun _ => rfl⟩

/-- C11, as the code has it. Store size invariant: in every store state reached from
`newStore` over an empty file by `Append`, `Read` and `ReadAt` calls, whatever the
device lets through, `size` is at most the number of bytes in the file plus those in
the buffer (nothing is counted twice), and equals it as long as no buffered write has
failed, that is while the writer carries no error, in particular after every `Append`
that succeeds. -/
theorem store_size_invariant (limit : Nat) (ops : List Op) :
    ((newStore (File.empty limit)).run ops).2.size ≤
      ((newStore (File.empty limit)).run ops).2.File.data.length +
        ((newStore (File.empty limit)).run ops).2.buf.buf.length ∧
    (((newStore (File.empty limit)).run ops).2.buf.err = none →
      ((newStore (File.empty limit)).run ops).2.size =
        ((newStore (File.empty limit)).run ops).2.File.data.length +
          ((newStore (File.empty limit)).run ops).2.buf.buf.length) ∧
    (∀ p r s1, ((newStore (File.empty limit)).run ops).2.Append p = (Res.ok r, s1) →
      s1.size = s1.File.data.length + s1.buf.buf.length) := by
  have hc := store.run_Counted ops _ (newStore_empty_Counted limit)
  refine ⟨hc.2.2.2.1, hc.2.2.2.2, ?_⟩
  intro p r s1 h
  obtain ⟨hA, hok⟩ := store.Append_Counted _ p hc
  rw [h] at hA hok
  exact hA.2.2.2.2 (hok r rfl)

theorem store_size_invariant_witness :
    ((newStore (File.empty 30)).run [Op.Append write, Op.ReadAt 8 0, Op.Append write]).2.size ≤
      ((newStore (File.empty 30)).run
        [Op.Append write, Op.ReadAt 8 0, Op.Append write]).2.File.data.length +
        ((newStore (File.empty 30)).run
          [Op.Append write, Op.ReadAt 8 0, Op.Append write]).2.buf.buf.length ∧
    ((newStore (File.empty 30)).run [Op.Append write, Op.ReadAt 8 0, Op.Append write]).2.size =
      ((newStore (File.empty 30)).run
        [Op.Append write, Op.ReadAt 8 0, Op.Append write]).2.File.data.length +
        ((newStore (File.empty 30)).run
          [Op.Append write, Op.ReadAt 8 0, Op.Append write]).2.buf.buf.length :=
  have h := store_size_invariant 30 [Op.Append write, Op.ReadAt 8 0, Op.Append write]
  ⟨h.1, h.2.1 (by decide)⟩

/-- An `Append` of more than the buffer takes, to a store over an empty file, on a
device that takes fewer bytes than the buffer holds: the flush of the full buffer
is cut short, `Append` returns the error and leaves `size` at 0, with `limit` bytes
of the frame in the file and the other `4096 - limit` in the buffer. -/
theorem store.Append_device_full (limit : Nat) (p : List Nat) (hl : limit < 4096)
    (hp : 4088 < p.length) (hp2 : p.length < 2 ^ 63) :
    ((newStore (File.empty limit)).Append p).1 = Res.error Err.noSpace ∧
    ((newStore (File.empty limit)).Append p).2.size = 0 ∧
    ((newStore (File.empty limit)).Append p).2.File.data.length = limit ∧
    ((newStore (File.empty limit)).Append p).2.buf.buf.length = 4096 - limit := by
  have hpl : toUint64 p.length = p.length := by simp only [toUint64]; omega
  obtain ⟨f, hf⟩ : ∃ f : Log.File, f = Log.File.empty limit := ⟨_, rfl⟩
  have hfoff : f.off = f.data.length := by rw [hf]; rfl
  have hfdata : f.data.length = 0 := by rw [hf]; rfl
  have hfroom : f.room = limit := by
    rw [hf]
    show min limit (2 ^ 63 - 1) - 0 = limit
    omega
  obtain ⟨b0, hb0⟩ : ∃ b0 : Writer, b0 = { buf := [] ++ PutUint64 p.length, err := none } :=
    ⟨_, rfl⟩
  have hb0len : b0.buf.length = 8 := by rw [hb0]; rfl
  have hb0err : b0.err = none := by rw [hb0]
  have hw1 : Writer.Write { buf := [], err := none } f (PutUint64 p.length) =
      (8, none, b0, f) := by
    rw [hb0]
    exact Writer.Write_buffered { buf := [], err := none } f (PutUint64 p.length) rfl
      (by rw [PutUint64_length]; decide)
  -- the payload: fill the buffer, flush it, and the flush is cut short
  have hav : b0.Available = 4088 := by
    show 4096 - b0.buf.length = 4088
    omega
  have hc : b0.Available < p.length ∧ b0.err = none := ⟨by omega, hb0err⟩
  have hnb : ¬ b0.Buffered = 0 := by
    show ¬ b0.buf.length = 0
    omega
  have hmin : min b0.Available p.length = 4088 := by rw [hav]; omega
  obtain ⟨b1, hb1⟩ : ∃ b1 : Writer, b1 = { buf := b0.buf ++ p.take 4088, err := b0.err } :=
    ⟨_, rfl⟩
  have hb1len : b1.buf.length = 4096 := by
    rw [hb1]
    show (b0.buf ++ p.take 4088).length = 4096
    rw [List.length_append, List.length_take]; omega
  have hb1err : b1.err = none := by rw [hb1]; exact hb0err
  have hk : (f.Write b1.buf).1 = limit := by
    show min b1.buf.length f.room = limit
    rw [hb1len, hfroom]; omega
  have hke : (f.Write b1.buf).2.1 = some Err.noSpace := by
    show (if min b1.buf.length f.room < b1.buf.length then some Err.noSpace else none) = _
    rw [hb1len, hfroom, if_pos (by omega)]
  have hfl : b1.Flush f = (some Err.noSpace,
      { buf := b1.buf.drop limit, err := some Err.noSpace }, (f.Write b1.buf).2.2) := by
    unfold Writer.Flush
    rw [hb1err]
    dsimp only
    rw [if_neg (by omega), hke, hk]
    simp
  have hloop : Writer.writeLoop (p.length + 2) b0 f p 0 =
      (0 + 4088, p.drop 4088, { buf := b1.buf.drop limit, err := some Err.noSpace },
        (f.Write b1.buf).2.2) := by
    rw [Writer.writeLoop_fill (p.length + 1) b0 f p 0 hc hnb, hmin, ← hb1, hfl]
    exact Writer.writeLoop_done _ _ _ _ _ (by simp)
  have hw2 : b0.Write f p = (0 + 4088, some Err.noSpace,
      { buf := b1.buf.drop limit, err := some Err.noSpace }, (f.Write b1.buf).2.2) := by
    unfold Writer.Write
    rw [hloop]
  have hA : (newStore f).Append p = (Res.error Err.noSpace,
      { File := (f.Write b1.buf).2.2, buf := { buf := b1.buf.drop limit, err := some Err.noSpace },
        size := 0 }) := by
    have e1 : (newStore f).buf.Write (newStore f).File (PutUint64 p.length) = (8, none, b0, f) :=
      hw1
    unfold store.Append
    rw [hpl]
    dsimp only
    rw [e1]
    dsimp only
    rw [hw2]
    dsimp only
    have hsz : (newStore f).size = 0 := by rw [hf]; rfl
    rw [hsz]
  rw [← hf, hA]
  refine ⟨rfl, rfl, ?_, ?_⟩
  · show (f.Write b1.buf).2.2.data.length = limit
    rw [(File.Write_at_end f b1.buf hfoff).1, hk, hfdata]
    omega
  · show (b1.buf.drop limit).length = 4096 - limit
    rw [List.length_drop, hb1len]

/-- C11 as stated fails when a buffered write fails. On a device that takes no byte,
`Append` of a payload of 5000 bytes to a store over an empty file returns the error
of the write, `size` stays 0 and the file empty, while 4096 bytes of the frame are
left in the buffer; and on a device that takes 10 bytes, 10 bytes of the frame are
in the file and 4086 in the buffer, with `size` still 0. -/
theorem store_size_invariant_counterexample :
    (((newStore (File.empty 0)).Append (List.replicate 5000 0)).1 = Res.error Err.noSpace ∧
      ((newStore (File.empty 0)).Append (List.replicate 5000 0)).2.size = 0 ∧
      ((newStore (File.empty 0)).Append (List.replicate 5000 0)).2.File.data.length = 0 ∧
      ((newStore (File.empty 0)).Append (List.replicate 5000 0)).2.buf.buf.length = 4096) ∧
    (((newStore (File.empty 10)).Append (List.replicate 5000 0)).1 = Res.error Err.noSpace ∧
      ((newStore (File.empty 10)).Append (List.replicate 5000 0)).2.size = 0 ∧
      ((newStore (File.empty 10)).Append (List.replicate 5000 0)).2.File.data.length = 10 ∧
      ((newStore (File.empty 10)).Append (List.replicate 5000 0)).2.buf.buf.length = 4086) :=
  ⟨store.Append_device_full 0 (List.replicate 5000 0) (by decide)
     (by rw [List.length_replicate]; decide) (by rw [List.length_replicate]; decide),
   store.Append_device_full 10 (List.replicate 5000 0) (by decide)
     (by rw [List.length_replicate]; decide) (by rw [List.length_replicate]; decide)⟩

/-! ## What `Close` adds to the file -/

/-- A `Write` larger than what the buffer still takes, into a buffer that holds bytes,
over a file with room: the buffer is filled and flushed; a rest that fits the
buffer stays in it, a larger rest goes straight to the file and the buffer is left
empty. -/
theorem Writer.Write_over (b : Writer) (f : File) (p : List Nat) (herr : b.err = none)
    (hlen : b.buf.length ≤ 4096) (hne : b.buf.length ≠ 0) (hoff : f.off = f.data.length)
    (hc : 4096 - b.buf.length < p.length)
    (hfit : f.data.length + b.buf.length + p.length ≤ min f.limit (2 ^ 63 - 1)) :
    (b.Write f p).1 = p.length ∧ (b.Write f p).2.1 = none ∧
    (b.Write f p).2.2.1.err = none ∧
    (b.Write f p).2.2.2.off = (b.Write f p).2.2.2.data.length ∧
    (b.Write f p).2.2.2.limit = f.limit ∧
    (b.Write f p).2.2.1.buf.length =
      (if 4096 < p.length - (4096 - b.buf.length) then 0
       else p.length - (4096 - b.buf.length)) ∧
    (b.Write f p).2.2.2.data.length + (b.Write f p).2.2.1.buf.length =
      f.data.length + b.buf.length + p.length := by
  have hav : b.Available = 4096 - b.buf.length := rfl
  have hcA : b.Available < p.length := hc
  have hb : ¬ b.Buffered = 0 := hne
  have hmin : min b.Available p.length = b.Available := Nat.min_eq_left (le_of_lt hcA)
  have htl : (p.take b.Available).length = b.Available := by
    rw [List.length_take]; omega
  have hdl : (p.drop b.Available).length = p.length - b.Available := List.length_drop _ _
  obtain ⟨f1, hf1⟩ : ∃ f1 : File, f1 =
      { data := f.data ++ (b.buf ++ p.take b.Available),
        off := f.off + (b.buf ++ p.take b.Available).length, limit := f.limit } := ⟨_, rfl⟩
  have hf1d : f1.data.length = f.data.length + 4096 := by
    rw [hf1]
    show (f.data ++ (b.buf ++ p.take b.Available)).length = _
    simp only [List.length_append, htl]; omega
  have hf1o : f1.off = f1.data.length := by rw [hf1]; simp [hoff]
  have hf1l : f1.limit = f.limit := by rw [hf1]
  have hfl : Writer.Flush { buf := b.buf ++ p.take b.Available, err := none } f =
      (none, { buf := [], err := none }, f1) := by
    rw [hf1]
    exact Writer.Flush_fit { buf := b.buf ++ p.take b.Available, err := none } f rfl hoff
      (by simp only [List.length_append, htl]; omega)
  have hstep : Writer.writeLoop (p.length + 2) b f p 0 =
      Writer.writeLoop (p.length + 1) { buf := [], err := none } f1
        (p.drop b.Available) (0 + b.Available) := by
    rw [Writer.writeLoop_fill (p.length + 1) b f p 0 ⟨hcA, herr⟩ hb, hmin, herr, hfl]
  have hav0 : Writer.Available { buf := [], err := none } = 4096 := rfl
  by_cases hc2 : 4096 < (p.drop b.Available).length
  · obtain ⟨f2, hf2⟩ : ∃ f2 : File, f2 =
        { data := f1.data ++ p.drop b.Available,
          off := f1.off + (p.drop b.Available).length, limit := f1.limit } := ⟨_, rfl⟩
    have hw : f1.Write (p.drop b.Available) = ((p.drop b.Available).length, none, f2) := by
      rw [hf2]
      exact File.Write_whole f1 (p.drop b.Available) hf1o (by rw [hf1l]; omega)
    obtain ⟨m, hm⟩ : ∃ m, p.length = m + 1 := ⟨p.length - 1, by omega⟩
    have hl : Writer.writeLoop (p.length + 2) b f p 0 =
        (0 + b.Available + (p.drop b.Available).length, [], { buf := [], err := none }, f2) := by
      rw [hstep, Writer.writeLoop_direct p.length { buf := [], err := none } f1 _ _
        ⟨by rw [hav0]; exact hc2, rfl⟩ rfl, hw]
      simp only [List.drop_length]
      rw [hm]
      exact Writer.writeLoop_done _ _ _ _ _ (by simp [Writer.Available])
    have hW : b.Write f p = (0 + b.Available + (p.drop b.Available).length + 0, none,
        { buf := [], err := none }, f2) := by
      unfold Writer.Write
      rw [hl]
      simp
    have hf2d : f2.data.length = f1.data.length + (p.drop b.Available).length := by
      rw [hf2]
      show (f1.data ++ p.drop b.Available).length = _
      rw [List.length_append]
    rw [hW]
    refine ⟨by show 0 + b.Available + (p.drop b.Available).length + 0 = _; omega, rfl, rfl, ?_,
      ?_, ?_, ?_⟩
    · show f2.off = f2.data.length
      rw [hf2]; simp [hf1o]
    · show f2.limit = f.limit
      rw [hf2]; exact hf1l
    · show ([] : List Nat).length = _
      rw [if_pos (by omega)]
      rfl
    · show f2.data.length + ([] : List Nat).length = _
      rw [hf2d, hf1d, hdl]
      simp only [List.length_nil]
      omega
  · have hl : Writer.writeLoop (p.length + 2) b f p 0 =
        (0 + b.Available, p.drop b.Available, { buf := [], err := none }, f1) := by
      rw [hstep]
      exact Writer.writeLoop_done _ _ _ _ _ (by rw [hav0]; exact fun h => hc2 h.1)
    have hm : min (Writer.Available { buf := [], err := none }) (p.drop b.Available).length
        = (p.drop b.Available).length := by
      rw [hav0]; exact Nat.min_eq_right (by omega)
    have hW : b.Write f p = (0 + b.Available + (p.drop b.Available).length, none,
        { buf := p.drop b.Available, err := none }, f1) := by
      unfold Writer.Write
      rw [hl]
      simp only [hm, List.take_length, List.nil_append]
    rw [hW]
    refine ⟨by show 0 + b.Available + (p.drop b.Available).length = _; omega, rfl, rfl, hf1o,
      hf1l, ?_, ?_⟩
    · show (p.drop b.Available).length = _
      rw [if_neg (by omega), hdl, hav]
    · show f1.data.length + (p.drop b.Available).length = _
      rw [hf1d, hdl]
      omega

/-- One `Append` to a store over an empty file, on a device with room for the frame,
and then `Close`: both succeed, the file holds the whole frame after `Close`, and
before `Close` it holds the frame less what is still in the buffer: all of it for a
payload of at most 4088 bytes, the bytes past the first 4096 of the frame for one of
at most 8184 bytes, and nothing for a larger one. -/
theorem store.Append_Close_fresh (limit : Nat) (p : List Nat)
    (hroom : 8 + p.length ≤ min limit (2 ^ 63 - 1)) :
    ((newStore (File.empty limit)).Append p).1 = Res.ok (8 + p.length, 0) ∧
    (((newStore (File.empty limit)).Append p).2.Close).1 = none ∧
    (((newStore (File.empty limit)).Append p).2.Close).2.File.data.length = 8 + p.length ∧
    ((newStore (File.empty limit)).Append p).2.File.data.length +
      ((newStore (File.empty limit)).Append p).2.buf.buf.length = 8 + p.length ∧
    ((newStore (File.empty limit)).Append p).2.buf.buf.length =
      (if p.length ≤ 4088 then 8 + p.length
       else if 4096 < p.length - 4088 then 0 else p.length - 4088) := by
  have hpl : toUint64 p.length = p.length := by simp only [toUint64]; omega
  obtain ⟨f, hf⟩ : ∃ f : Log.File, f = Log.File.empty limit := ⟨_, rfl⟩
  have hfoff : f.off = f.data.length := by rw [hf]; rfl
  have hfdata : f.data.length = 0 := by rw [hf]; rfl
  have hflim : f.limit = limit := by rw [hf]; rfl
  obtain ⟨b0, hb0⟩ : ∃ b0 : Writer, b0 = { buf := [] ++ PutUint64 p.length, err := none } :=
    ⟨_, rfl⟩
  have hb0len : b0.buf.length = 8 := by rw [hb0]; rfl
  have hb0err : b0.err = none := by rw [hb0]
  have hw1 : (newStore f).buf.Write (newStore f).File (PutUint64 p.length) =
      (8, none, b0, f) := by
    rw [hb0]
    exact Writer.Write_buffered { buf := [], err := none } f (PutUint64 p.length) rfl
      (by rw [PutUint64_length]; decide)
  obtain ⟨R2, hR2⟩ : ∃ R2, R2 = b0.Write f p := ⟨_, rfl⟩
  have key : R2.1 = p.length ∧ R2.2.1 = none ∧ R2.2.2.1.err = none ∧
      R2.2.2.2.off = R2.2.2.2.data.length ∧ R2.2.2.2.limit = limit ∧
      R2.2.2.1.buf.length =
        (if p.length ≤ 4088 then 8 + p.length
         else if 4096 < p.length - 4088 then 0 else p.length - 4088) ∧
      R2.2.2.2.data.length + R2.2.2.1.buf.length = 8 + p.length := by
    by_cases hsmall : p.length ≤ 4088
    · have h := Writer.Write_buffered b0 f p hb0err (by omega)
      rw [hR2, h]
      refine ⟨rfl, rfl, rfl, hfoff, hflim, ?_, ?_⟩
      · show (b0.buf ++ p).length = _
        rw [if_pos hsmall, List.length_append, hb0len]
      · show f.data.length + (b0.buf ++ p).length = _
        rw [List.length_append, hb0len, hfdata]; omega
    · obtain ⟨o1, o2, o3, o4, o5, o6, o7⟩ := Writer.Write_over b0 f p hb0err (by omega) (by omega)
        hfoff (by omega) (by rw [hfdata, hb0len, hflim]; omega)
      rw [← hR2] at o1 o2 o3 o4 o5 o6 o7
      rw [hb0len] at o6 o7
      refine ⟨o1, o2, o3, o4, by rw [o5, hflim], ?_, by rw [o7, hfdata, Nat.zero_add]⟩
      rw [o6, if_neg hsmall]
  obtain ⟨k1, k2, k3, k4, k5, k6, k7⟩ := key
  have hsz : (newStore f).size = 0 := by rw [hf]; rfl
  have hA : (newStore f).Append p = (Res.ok (8 + p.length, 0),
      { File := R2.2.2.2, buf := R2.2.2.1, size := 8 + p.length }) := by
    have hw : toUint64 (p.length + lenWidth) = 8 + p.length := by
      simp only [toUint64, lenWidth]; omega
    have hw3 : toUint64 (0 + (8 + p.length)) = 8 + p.length := by
      simp only [toUint64]; omega
    unfold store.Append
    rw [hpl]
    dsimp only
    rw [hw1]
    dsimp only
    rw [← hR2, k2]
    dsimp only
    rw [k1, hw, hsz, hw3]
  have hfl := Writer.Flush_fit R2.2.2.1 R2.2.2.2 k3 k4 (by rw [k5, k7]; exact hroom)
  rw [← hf, hA]
  refine ⟨rfl, ?_, ?_, k7, k6⟩
  · show (R2.2.2.1.Flush R2.2.2.2).1 = none
    rw [hfl]
  · show (R2.2.2.1.Flush R2.2.2.2).2.2.data.length = 8 + p.length
    rw [hfl]
    show (R2.2.2.2.data ++ R2.2.2.1.buf).length = _
    rw [List.length_append, k7]

/-- C15, as the code has it. Store close durability: for every payload of at most 8184
bytes, after one `store.Append` to a store freshly created over an empty file, on a
device with room for the frame, followed by `store.Close`, both succeed and the file
after `Close` is strictly longer than it was after the `Append` and before `Close`. -/
theorem store_close_grows (limit : Nat) (p : List Nat) (hp : p.length ≤ 8184)
    (hroom : 8 + p.length ≤ limit) :
    ((newStore (File.empty limit)).Append p).1 = Res.ok (8 + p.length, 0) ∧
    (((newStore (File.empty limit)).Append p).2.Close).1 = none ∧
    ((newStore (File.empty limit)).Append p).2.File.data.length <
      (((newStore (File.empty limit)).Append p).2.Close).2.File.data.length := by
  obtain ⟨h1, h2, h3, h4, h5⟩ := store.Append_Close_fresh limit p (by omega)
  refine ⟨h1, h2, ?_⟩
  rw [h3]
  by_cases hsmall : p.length ≤ 4088
  · rw [if_pos hsmall] at h5
    omega
  · rw [if_neg hsmall, if_neg (by omega)] at h5
    omega

theorem store_close_grows_witness :
    ((newStore (File.empty (2 ^ 40))).Append write).1 = Res.ok (8 + write.length, 0) ∧
    (((newStore (File.empty (2 ^ 40))).Append write).2.Close).1 = none ∧
    ((newStore (File.empty (2 ^ 40))).Append write).2.File.data.length <
      (((newStore (File.empty (2 ^ 40))).Append write).2.Close).2.File.data.length :=
  store_close_grows (2 ^ 40) write (by decide) (by decide)

/-- C15 as stated fails for a payload of 8185 bytes: the first 4096 bytes of the frame
are flushed when the buffer is full, the other 4097 are more than the buffer holds
and go straight to the file, so after the `Append` the file has all 8193 bytes, the
buffer is empty, and `Close` adds nothing. -/
theorem store_close_grows_counterexample :
    ((newStore (File.empty (2 ^ 63 - 1))).Append (List.replicate 8185 0)).1 = Res.ok (8193, 0) ∧
    ((newStore (File.empty (2 ^ 63 - 1))).Append (List.replicate 8185 0)).2.buf.buf.length = 0 ∧
    ((newStore (File.empty (2 ^ 63 - 1))).Append (List.replicate 8185 0)).2.File.data.length = 8193 ∧
    (((newStore (File.empty (2 ^ 63 - 1))).Append (List.replicate 8185 0)).2.Close).1 = none ∧
    (((newStore (File.empty (2 ^ 63 - 1))).Append (List.replicate 8185 0)).2.Close).2.File.data.length
      = 8193 := by
  obtain ⟨q, hq⟩ : ∃ q : List Nat, q = List.replicate 8185 0 := ⟨_, rfl⟩
  have hlen : q.length = 8185 := by rw [hq]; exact List.length_replicate _ _
  rw [← hq]
  obtain ⟨h1, h2, h3, h4, h5⟩ := store.Append_Close_fresh (2 ^ 63 - 1) q
    (by rw [hlen]; decide)
  rw [hlen] at h1 h3 h4 h5
  rw [if_neg (by decide), if_pos (by decide)] at h5
  refine ⟨h1, h5, ?_, h2, h3⟩
  rw [h5] at h4
  exact h4

/-! ## Reads outside the bytes written -/

theorem File.ReadAt_ok (f : File) (n : Nat) (off : Int) (x : List Nat)
    (h : f.ReadAt n off = (x, none)) :
    0 ≤ off ∧ x = (f.data.drop off.toNat).take n ∧ x.length = n ∧
    (0 < n → off.toNat + n ≤ f.data.length) := by
  unfold File.ReadAt at h
  by_cases hneg : off < 0
  · rw [if_pos hneg] at h
    cases h
  · rw [if_neg hneg] at h
    dsimp only at h
    have hx : x = (f.data.drop off.toNat).take n := (congrArg Prod.fst h).symm
    have he := congrArg Prod.snd h
    dsimp only at he
    have hlen : ¬ ((f.data.drop off.toNat).take n).length < n := by
      intro hc
      rw [if_pos hc] at he
      cases he
    have hl2 := hlen
    rw [List.length_take, List.length_drop] at hl2
    refine ⟨by omega, hx, ?_, ?_⟩
    · rw [hx, List.length_take, List.length_drop]; omega
    · intro hn; omega

/-- A `Read` that returns bytes, on a store whose `size` counts the bytes written, read
a frame that lies inside them: the eight bytes at `pos` are within `size`, they
decode to the number of bytes returned, and these end within `size`. So a `Read`
whose length field or payload would pass `size` returns no bytes. -/
theorem store.Read_ok_inside (s : store) (hc : s.Counted) (pos : Nat) (hpos : pos < 2 ^ 64)
    (b : List Nat) (h : (s.Read pos).1 = Res.ok b) :
    pos + 8 ≤ s.size ∧ Uint64 ((s.content.drop pos).take 8) = b.length ∧
    pos + 8 + b.length ≤ s.size := by
  obtain ⟨hoff, hlen, hdata, hle, heq⟩ := hc
  obtain ⟨g1, g2, g3, g4, g5, g6, g7⟩ := Writer.Flush_total s.buf s.File hoff
  obtain ⟨R, hR⟩ : ∃ R, R = s.buf.Flush s.File := ⟨_, rfl⟩
  rw [← hR] at g1 g2 g3 g4 g5 g6 g7
  have hRd : R.1 = none → R.2.2.data = s.content := by
    intro hn
    rw [hR] at hn ⊢
    unfold Writer.Flush at hn ⊢
    have herr := (g7 (by rw [hR]; exact hn)).2
    rw [herr] at hn ⊢
    dsimp only at hn ⊢
    by_cases hb : s.buf.buf.length = 0
    · rw [if_pos hb]
      show s.File.data = s.File.data ++ s.buf.buf
      rw [List.length_eq_zero.1 hb, List.append_nil]
    · rw [if_neg hb] at hn ⊢
      have hnone : (s.File.Write s.buf.buf).2.1 = none := by
        by_cases hcc : (s.File.Write s.buf.buf).1 < s.buf.buf.length ∧
            (s.File.Write s.buf.buf).2.1 = none
        · rw [if_pos hcc] at hn; cases hn
        · rw [if_neg hcc] at hn
          cases hw : (s.File.Write s.buf.buf).2.1 with
          | none => rfl
          | some e => rw [hw] at hn; cases hn
      have hall := (File.Write_short s.File s.buf.buf).2 hnone
      have hroom : s.buf.buf.length ≤ s.File.room := by
        have : (s.File.Write s.buf.buf).1 = min s.buf.buf.length s.File.room := rfl
        rw [this] at hall
        have := Nat.min_le_right s.buf.buf.length s.File.room
        omega
      have hfit : s.File.data.length + s.buf.buf.length ≤ min s.File.limit (2 ^ 63 - 1) := by
        unfold File.room at hroom
        omega
      have hfl := Writer.Flush_fit s.buf s.File herr hoff hfit
      unfold Writer.Flush at hfl
      rw [herr] at hfl
      dsimp only at hfl
      rw [if_neg hb] at hfl
      rw [hfl]
      rfl
  have hRead : s.Read pos =
      match R.1 with
      | some e => (Res.error e, { File := R.2.2, buf := R.2.1, size := s.size })
      | none =>
        match (R.2.2.ReadAt lenWidth (toInt64 pos)).2 with
        | some e => (Res.error e, { File := R.2.2, buf := R.2.1, size := s.size })
        | none =>
          if 2 ^ 63 ≤ Uint64 (R.2.2.ReadAt lenWidth (toInt64 pos)).1 then
            (Res.error Err.outOfRange, { File := R.2.2, buf := R.2.1, size := s.size })
          else
            match (R.2.2.ReadAt (Uint64 (R.2.2.ReadAt lenWidth (toInt64 pos)).1)
                (toInt64 (toUint64 (pos + lenWidth)))).2 with
            | some e => (Res.error e, { File := R.2.2, buf := R.2.1, size := s.size })
            | none =>
              (Res.ok (R.2.2.ReadAt (Uint64 (R.2.2.ReadAt lenWidth (toInt64 pos)).1)
                (toInt64 (toUint64 (pos + lenWidth)))).1,
               { File := R.2.2, buf := R.2.1, size := s.size }) := by
    rw [hR]; rfl
  rw [hRead] at h
  cases hR1 : R.1 with
  | some e => rw [hR1] at h; cases h
  | none =>
    rw [hR1] at h
    dsimp only at h
    obtain ⟨hbuf, herr⟩ := g7 hR1
    have hsz := heq herr
    have hcont := hRd hR1
    have hclen : s.content.length = s.size := by
      rw [hsz]; simp [store.content]
    cases hA : (R.2.2.ReadAt lenWidth (toInt64 pos)).2 with
    | some e => rw [hA] at h; cases h
    | none =>
      rw [hA] at h
      dsimp only at h
      by_cases hbig : 2 ^ 63 ≤ Uint64 (R.2.2.ReadAt lenWidth (toInt64 pos)).1
      · rw [if_pos hbig] at h; cases h
      · rw [if_neg hbig] at h
        cases hB : (R.2.2.ReadAt (Uint64 (R.2.2.ReadAt lenWidth (toInt64 pos)).1)
            (toInt64 (toUint64 (pos + lenWidth)))).2 with
        | some e => rw [hB] at h; cases h
        | none =>
          rw [hB] at h
          dsimp only at h
          have hb : (R.2.2.ReadAt (Uint64 (R.2.2.ReadAt lenWidth (toInt64 pos)).1)
              (toInt64 (toUint64 (pos + lenWidth)))).1 = b := by
            injection h
          obtain ⟨a1, a2, a3, a4⟩ := File.ReadAt_ok R.2.2 lenWidth (toInt64 pos) _
            (Prod.ext rfl hA)
          obtain ⟨c1, c2, c3, c4⟩ := File.ReadAt_ok R.2.2 _ _ b (Prod.ext hb hB)
          have hpos63 : pos < 2 ^ 63 := by
            by_contra hcn
            unfold toInt64 at a1
            have hm : pos % 2 ^ 64 = pos := Nat.mod_eq_of_lt hpos
            rw [hm, if_neg hcn] at a1
            omega
          have hi1 : toInt64 pos = (pos : Int) := toInt64_natCast pos hpos63
          rw [hi1] at a2 a4
          have ht : ((pos : Nat) : Int).toNat = pos := Int.toNat_natCast pos
          rw [ht] at a2 a4
          have hin := a4 (by decide)
          rw [hcont, hclen] at hin
          have hl8 : lenWidth = 8 := rfl
          have hp8 : toInt64 (toUint64 (pos + lenWidth)) = ((pos + 8 : Nat) : Int) := by
            have : toUint64 (pos + lenWidth) = pos + 8 := by
              simp only [toUint64, lenWidth]; omega
            rw [this, toInt64_natCast _ (by omega)]
          rw [hp8] at c4
          have ht2 : ((pos + 8 : Nat) : Int).toNat = pos + 8 := Int.toNat_natCast _
          rw [ht2, hcont, hclen] at c4
          refine ⟨by omega, ?_, ?_⟩
          · rw [c3, hi1]
            have a5 : (R.2.2.ReadAt lenWidth (pos : Int)).1 = (s.content.drop pos).take 8 := by
              rw [← hcont]; exact a2
            exact (congrArg Uint64 a5).symm
          · by_cases hz : b.length = 0
            · omega
            · have := c4 (by rw [← c3]; omega)
              rw [c3]
              exact this

/-- C12. Store read out of range: after `Append` of sixteen bytes `0xFF` to a store over
an empty file, `size` is 24 and the eight bytes at position 8 lie inside; they decode
to the length `2^64 - 1`, so the payload would end far past `size`, and
`store.Read(8)` panics in `make` instead of returning an error. The same on a store
opened over a file that holds just eight bytes `0xFF`, at position 0. -/
theorem store_Read_length_field_panics :
    (((newStore (File.empty (2 ^ 40))).Append (List.replicate 16 255)).1 = Res.ok (24, 0) ∧
      ((newStore (File.empty (2 ^ 40))).Append (List.replicate 16 255)).2.size = 24 ∧
      Uint64 (List.replicate 8 255) = 2 ^ 64 - 1 ∧
      (((newStore (File.empty (2 ^ 40))).Append (List.replicate 16 255)).2.Read 8).1 =
        Res.error Err.outOfRange) ∧
    ((newStore { data := List.replicate 8 255, off := 8, limit := 2 ^ 40 }).size = 8 ∧
      ((newStore { data := List.replicate 8 255, off := 8, limit := 2 ^ 40 }).Read 0).1 =
        Res.error Err.outOfRange) := by
  decide

end Log
